import Mathlib

/-
Shallow embedding of the Aluminum progress engine (src/progress.cpp) and of
the hwloc bitmap serialization helpers defined in the same file.

Conventions used throughout:
* `compute_stream` handles are opaque and compared by identity, so they are
  modelled as `Nat`.
* Operation states (`AlState*`) are records carrying the fields the engine
  observes plus a script of future `step()` results (the collective algorithm
  itself is an external collaborator; its behaviour is an arbitrary script).
* Submitter thread ids are `Nat`; calls are modelled as atomic (the claims
  settled here concern sequences of non-overlapping calls).
* Compile-time toggles (`AL_PE_STREAM_QUEUE_CACHE`, `AL_THREAD_MULTIPLE`,
  `AL_PE_START_ON_DEMAND`, `AL_PE_ADD_DEFAULT_STREAM`) and the tuning
  constants (`AL_PE_NUM_STREAMS`, `AL_PE_NUM_PIPELINE_STAGES`,
  `AL_PE_NUM_CONCURRENT_OPS`) become a `Config` record.
* The `AL_DEBUG` checks (too many streams, pipeline advance past the last
  stage) are modelled as always compiled in, matching the spec's error
  taxonomy which lists both as fatal configuration errors.
-/

namespace Aluminum

/-- Run type of an operation (`RunType` in the source): whether it counts
against the global concurrency cap. -/
inductive RunType where
  | bounded
  | unbounded
deriving DecidableEq, Repr

/-- Result of one `step()` call (`PEAction` in the source). -/
inductive PEAction where
  | cont
  | advance
  | complete
deriving DecidableEq, Repr

/-- An operation state as the engine observes it (`AlState` of the source):
identity, compute stream handle, run type, the engine-owned
`paused_for_advance` flag, and the script of future `step()` results of the
opaque collective (when the script is exhausted the operation keeps polling,
i.e. returns `cont`). -/
structure AlState where
  opid : Nat
  stream : Nat
  runType : RunType
  paused_for_advance : Bool := false
  script : List PEAction := []
deriving DecidableEq, Repr

/-- One `step()` call: consume the next scripted action. -/
def stepOp (r : AlState) : PEAction × AlState :=
  (r.script.headD PEAction.cont, { r with script := r.script.tail })

/-- Observable events emitted by the engine, used to state ordering claims. -/
inductive Event where
  | enq (opid : Nat) (stream : Nat)
  | start (opid : Nat)
  | stepped (opid : Nat)
  | incBounded
  | appendStage0 (opid : Nat)
  | popQueue (slot : Nat)
  | completed (opid : Nat)
deriving DecidableEq, Repr

/-- Fatal errors raised by the engine (`throw_al_exception` sites relevant to
the claims). -/
inductive PEErr where
  | tooManyStreams
  | advanceTooFar
  | stopTwice
deriving DecidableEq, Repr

/-- Modelled from the spec: one input queue of the submission registry
(§4.2 of the spec; the queue class itself is declared in progress.hpp, which
is not part of the sources).  The contract the engine relies on is a FIFO
with producer `push` and consumer `peek`/`pop`, modelled by a `List` with
`push` appending at the tail and `peek`/`pop` acting on the head. -/
structure InputQueue where
  compute_stream : Nat
  q : List AlState := []
deriving DecidableEq, Repr

/-- Compile-time configuration of the engine (see §6 of the spec). -/
structure Config where
  cap : Nat                 -- AL_PE_NUM_CONCURRENT_OPS
  numStages : Nat           -- AL_PE_NUM_PIPELINE_STAGES
  queueCapacity : Nat       -- AL_PE_NUM_STREAMS
  cacheEnabled : Bool       -- AL_PE_STREAM_QUEUE_CACHE
  threadMultiple : Bool     -- AL_THREAD_MULTIPLE
  onDemand : Bool           -- AL_PE_START_ON_DEMAND
  addDefaultStream : Bool   -- AL_PE_ADD_DEFAULT_STREAM
deriving DecidableEq, Repr

/-- Complete engine state: initialized registry slots, per-thread
stream-to-queue caches, the per-stream pipelines (`run_queues`, kept in
creation order), the `num_bounded` counter, lifecycle flags, and counters of
spawned worker threads and `bind()` calls plus the event trace (observables
for the lifecycle and ordering claims). -/
structure PEState where
  request_queues : List InputQueue := []
  caches : List (Nat × List (Nat × Nat)) := []
  run_queues : List (Nat × List (List AlState)) := []
  num_bounded : Nat := 0
  stop_flag : Bool := false
  started_flag : Bool := false
  doing_start_flag : Bool := false
  threads_spawned : Nat := 0
  bind_calls : Nat := 0
  trace : List Event := []
deriving DecidableEq, Repr

/-- Initial state built by the `ProgressEngine` constructor: flags cleared;
with `AL_PE_ADD_DEFAULT_STREAM` the default stream (handle 0) occupies slot 0
and `num_input_streams` starts at 1. -/
def initState (cfg : Config) : PEState :=
  { request_queues := if cfg.addDefaultStream then [{ compute_stream := 0 }] else [] }

/-- Lookup in an association list keyed by `Nat` (used for the per-thread
caches and for `run_queues`). -/
def assocFind {α : Type} : List (Nat × α) → Nat → Option α
  | [], _ => none
  | (k, v) :: rest, key => if k = key then some v else assocFind rest key

/-- Insert-or-update in an association list keyed by `Nat`. -/
def assocSet {α : Type} : List (Nat × α) → Nat → α → List (Nat × α)
  | [], key, v => [(key, v)]
  | (k, w) :: rest, key, v =>
    if k = key then (k, v) :: rest else (k, w) :: assocSet rest key v

/-- Number of `request_queues` slots published (`num_input_streams`): the
model keeps exactly the initialized prefix. -/
def numInputStreams (S : PEState) : Nat := S.request_queues.length

/-- Linear scan of registry slots `[lo, lo+count)` for a matching
`compute_stream`; returns the slot index on a hit. -/
def scanQueuesFrom (qs : List InputQueue) (stream : Nat) : Nat → Nat → Option Nat
  | _, 0 => none
  | lo, count + 1 =>
    match qs.get? lo with
    | some iq => if iq.compute_stream = stream then some lo
                 else scanQueuesFrom qs stream (lo + 1) count
    | none => none

/-- Key for the stream-to-queue cache: with `AL_THREAD_MULTIPLE` the cache is
`thread_local` (keyed by submitter thread id), otherwise it is a single
shared map. -/
def cacheKey (cfg : Config) (tid : Nat) : Nat :=
  if cfg.threadMultiple then tid else 0

/-- `stream_to_queue` lookup for a given submitter thread. -/
def cacheLookup (cfg : Config) (S : PEState) (tid stream : Nat) : Option Nat :=
  match assocFind S.caches (cacheKey cfg tid) with
  | none => none
  | some m => assocFind m stream

/-- Update the submitter's `stream_to_queue` cache (no-op when the cache is
not compiled in). -/
def cacheUpd (cfg : Config) (tid stream slot : Nat) (S : PEState) : PEState :=
  if cfg.cacheEnabled then
    let m := (assocFind S.caches (cacheKey cfg tid)).getD []
    { S with caches := assocSet S.caches (cacheKey cfg tid) (assocSet m stream slot) }
  else S

/-- Apply an update to the queue stored in a given registry slot. -/
def updateSlot (f : List AlState → List AlState) :
    List InputQueue → Nat → List InputQueue
  | [], _ => []
  | iq :: rest, 0 => { iq with q := f iq.q } :: rest
  | iq :: rest, slot + 1 => iq :: updateSlot f rest slot

/-- Push a state onto the queue at a given slot (`q.push`), recording the
enqueue event. -/
def pushSlot (S : PEState) (slot : Nat) (st : AlState) : PEState :=
  { S with
    request_queues := updateSlot (fun q => q ++ [st]) S.request_queues slot
    trace := S.trace ++ [Event.enq st.opid st.stream] }

/-- Worker thread entry (`ProgressEngine::engine` before the main loop): set
the GPU device, `bind()`, publish `started_flag`, notify waiters. -/
def workerEntry (S : PEState) : PEState :=
  { S with bind_calls := S.bind_calls + 1, started_flag := true }

/-- The `run()` lifecycle call.  With `AL_PE_START_ON_DEMAND`, a second
caller finds `doing_start_flag` set, waits until `started_flag`, and returns
without spawning; otherwise `run()` unconditionally spawns a worker thread.
`run()` blocks until the worker has published `started_flag`, so the worker
prologue (device set, `bind`, `started_flag := true`) is modelled as running
synchronously inside `run`; loop iterations are modelled separately by
`enginePass`/`engineLoop`. -/
def run (cfg : Config) (S : PEState) : PEState :=
  if cfg.onDemand && S.doing_start_flag then S
  else
    let S₁ := if cfg.onDemand then { S with doing_start_flag := true } else S
    workerEntry { S₁ with threads_spawned := S₁.threads_spawned + 1 }

/-- The `stop()` lifecycle call: return if never started, fatal error if
already stopping, otherwise set `stop_flag` (and join the worker). -/
def stop (S : PEState) : Except PEErr PEState :=
  if !S.started_flag then Except.ok S
  else if S.stop_flag then Except.error PEErr.stopTwice
  else Except.ok { S with stop_flag := true }

/-- Slow path of `enqueue`: the queue was not found, so create it.
`localK` is the `num_input_streams` value read before "taking the mutex";
with `AL_THREAD_MULTIPLE` the slots `[localK, lockedK)` are re-scanned in
case a racing submitter added the queue (calls are modelled as atomic, so
`lockedK` re-reads the same `numInputStreams S`).  With `AL_DEBUG`,
exceeding `AL_PE_NUM_STREAMS` is a configuration error.  Otherwise the new
slot is written and published, the mutex released, and the state pushed. -/
def enqueueCreate (cfg : Config) (tid : Nat) (st : AlState) (S : PEState)
    (localK : Nat) : Except PEErr PEState :=
  match (if cfg.threadMultiple
         then scanQueuesFrom S.request_queues st.stream localK
                (numInputStreams S - localK)
         else none) with
  | some i => Except.ok (cacheUpd cfg tid st.stream i (pushSlot S i st))
  | none =>
    if cfg.queueCapacity ≤ numInputStreams S then Except.error PEErr.tooManyStreams
    else
      Except.ok (cacheUpd cfg tid st.stream (numInputStreams S)
        (pushSlot
          { S with request_queues :=
              S.request_queues ++ [{ compute_stream := st.stream }] }
          (numInputStreams S) st))

/-- Start-on-demand hook at the top of `enqueue`: with
`AL_PE_START_ON_DEMAND`, drive `run()` first if the engine has not
started. -/
def maybeStartOnDemand (cfg : Config) (S : PEState) : PEState :=
  if cfg.onDemand && !S.started_flag then run cfg S else S

/-- Lookup-and-push part of `enqueue`.  With `AL_PE_STREAM_QUEUE_CACHE` the
thread's cache is consulted; on a cache miss the code proceeds directly to
queue creation (the linear scan of slots `[0, k)` is only compiled in the
no-cache configuration). -/
def enqueueBody (cfg : Config) (tid : Nat) (st : AlState) (S : PEState) :
    Except PEErr PEState :=
  if cfg.cacheEnabled then
    match cacheLookup cfg S tid st.stream with
    | some i => Except.ok (pushSlot S i st)
    | none => enqueueCreate cfg tid st S (numInputStreams S)
  else
    match scanQueuesFrom S.request_queues st.stream 0 (numInputStreams S) with
    | some i => Except.ok (pushSlot S i st)
    | none => enqueueCreate cfg tid st S (numInputStreams S)

/-- `ProgressEngine::enqueue`, called by submitter thread `tid`. -/
def enqueue (cfg : Config) (tid : Nat) (st : AlState) (S : PEState) :
    Except PEErr PEState :=
  enqueueBody cfg tid st (maybeStartOnDemand cfg S)

/-! ## Phase A: admission (the first half of the worker loop body) -/

/-- Peek the head of the input queue in a given slot. -/
def peekSlot (S : PEState) (slot : Nat) : Option AlState :=
  match S.request_queues.get? slot with
  | some iq => iq.q.head?
  | none => none

/-- Pop the head of the input queue in a given slot (`q.pop_always`). -/
def popSlot (qs : List InputQueue) (slot : Nat) : List InputQueue :=
  updateSlot List.tail qs slot

/-- `run_queues.count(stream)` as a Bool. -/
def rqContains (rq : List (Nat × List (List AlState))) (stream : Nat) : Bool :=
  (assocFind rq stream).isSome

/-- Stage 0 of the pipeline for a stream (empty when the pipeline row does
not exist, matching the short-circuit in the admission test). -/
def stage0Of (rq : List (Nat × List (List AlState))) (stream : Nat) : List AlState :=
  match assocFind rq stream with
  | none => []
  | some stages => stages.headD []

/-- Append an operation to stage 0 of an existing pipeline row
(`run_queues[stream][0].push_back(req)`).  The inner `[]` cases are
unreachable: rows are created with `numStages` stages and
`AL_PE_NUM_PIPELINE_STAGES ≥ 1`; they are completed so that no operation is
ever dropped. -/
def rqAppendStage0 : List (Nat × List (List AlState)) → Nat → AlState →
    List (Nat × List (List AlState))
  | [], _, _ => []
  | (s, stages) :: rest, stream, req =>
    if s = stream then
      match stages with
      | [] => (s, [[req]]) :: rest
      | st0 :: more => (s, (st0 ++ [req]) :: more) :: rest
    else (s, stages) :: rqAppendStage0 rest stream req

/-- Lazy creation of the pipeline row for a stream (`run_queues.emplace`
with an empty pipeline of `numStages` stages). -/
def rqEnsure (cfg : Config) (rq : List (Nat × List (List AlState))) (stream : Nat) :
    List (Nat × List (List AlState)) :=
  if rqContains rq stream then rq
  else rq ++ [(stream, List.replicate cfg.numStages [])]

/-- Admission of one queue head (`do_start` branch of the engine loop):
create the pipeline row if needed, append to stage 0, invoke `start()`, pop
the input queue. -/
def doStart (cfg : Config) (S : PEState) (slot : Nat) (req : AlState) : PEState :=
  { S with
    run_queues := rqAppendStage0 (rqEnsure cfg S.run_queues req.stream) req.stream req
    request_queues := popSlot S.request_queues slot
    trace := S.trace ++ [Event.appendStage0 req.opid, Event.start req.opid,
                         Event.popQueue slot] }

/-- One Phase A slot visit: peek the head; admit an `unbounded` head always;
admit a `bounded` head iff `num_bounded < cap`, or the pipeline row for its
stream does not exist, or that row's stage 0 is empty — incrementing
`num_bounded` (before `start()`) on a bounded admission. -/
def phaseAStep (cfg : Config) (S : PEState) (slot : Nat) : PEState :=
  match peekSlot S slot with
  | none => S
  | some req =>
    match req.runType with
    | RunType.bounded =>
      if S.num_bounded < cfg.cap
          || !(rqContains S.run_queues req.stream)
          || (stage0Of S.run_queues req.stream).isEmpty then
        doStart cfg
          { S with num_bounded := S.num_bounded + 1,
                   trace := S.trace ++ [Event.incBounded] } slot req
      else S
    | RunType.unbounded => doStart cfg S slot req

/-- Phase A: visit every published input queue slot in index order
(`for i in [0, num_input_streams)`). -/
def phaseA (cfg : Config) (S : PEState) : PEState :=
  (List.range (numInputStreams S)).foldl (phaseAStep cfg) S

/-! ## Phase B: stepping (the second half of the worker loop body) -/

/-- Forward pass over one pipeline stage.  `atHead` tracks whether the
iterator is at `pipeline[stage].begin()` (true initially; erasures keep it
true, keeping an entry makes it false).  Paused entries are skipped.
Otherwise the entry is stepped: `cont` keeps it; `advance` past the last
stage is a fatal configuration error (`AL_DEBUG` check), at the head it moves
the entry to the next stage, elsewhere it sets `paused_for_advance`;
`complete` removes and destroys the entry.  Returns
(kept entries, entries moved to the next stage, completed entries, events).
-/
def forwardPass (isLast : Bool) : Bool → List AlState →
    Except PEErr (List AlState × List AlState × List AlState × List Event)
  | _, [] => Except.ok ([], [], [], [])
  | atHead, r :: rest =>
    if r.paused_for_advance then
      match forwardPass isLast false rest with
      | Except.error e => Except.error e
      | Except.ok (kept, moved, comp, evs) =>
        Except.ok (r :: kept, moved, comp, evs)
    else
      match stepOp r with
      | (PEAction.cont, r') =>
        match forwardPass isLast false rest with
        | Except.error e => Except.error e
        | Except.ok (kept, moved, comp, evs) =>
          Except.ok (r' :: kept, moved, comp, Event.stepped r.opid :: evs)
      | (PEAction.advance, r') =>
        if isLast then Except.error PEErr.advanceTooFar
        else if atHead then
          match forwardPass isLast true rest with
          | Except.error e => Except.error e
          | Except.ok (kept, moved, comp, evs) =>
            Except.ok (kept, r' :: moved, comp, Event.stepped r.opid :: evs)
        else
          match forwardPass isLast false rest with
          | Except.error e => Except.error e
          | Except.ok (kept, moved, comp, evs) =>
            Except.ok ({ r' with paused_for_advance := true } :: kept, moved, comp,
                       Event.stepped r.opid :: evs)
      | (PEAction.complete, r') =>
        match forwardPass isLast atHead rest with
        | Except.error e => Except.error e
        | Except.ok (kept, moved, comp, evs) =>
          Except.ok (kept, moved, r' :: comp,
                     Event.stepped r.opid :: Event.completed r.opid :: evs)

/-- Drain pass over one pipeline stage: while the head is paused, clear the
flag and move it to the next stage; stop at the first non-paused entry.
Returns (remaining entries, drained entries). -/
def drainPass : List AlState → List AlState × List AlState
  | [] => ([], [])
  | r :: rest =>
    if r.paused_for_advance then
      let (rem, mov) := drainPass rest
      (rem, { r with paused_for_advance := false } :: mov)
    else (r :: rest, [])

/-- Process one pipeline stage: forward pass then drain pass.  Entries moved
by the forward pass reach the next stage before drained entries (matching the
`push_back` order).  Draining out of the last stage would write past the end
of the pipeline array; it is modelled as the same fatal error and is
unreachable (an `advance` at the last stage already faults before the flag
can be set, and entries always arrive at a stage unpaused). -/
def processStage (isLast : Bool) (l : List AlState) :
    Except PEErr (List AlState × List AlState × List AlState × List Event) :=
  match forwardPass isLast true l with
  | Except.error e => Except.error e
  | Except.ok (kept, fmov, comp, evs) =>
    let (rem, dmov) := drainPass kept
    if isLast && !dmov.isEmpty then Except.error PEErr.advanceTooFar
    else Except.ok (rem, fmov ++ dmov, comp, evs)

/-- Run one scheduler pass over the stages of one stream's pipeline.
`incoming` holds the entries pushed back from the previous stage during this
same pass (they are appended before the stage is iterated).  Returns the new
stages, all completed entries, and the events. -/
def runPipeline : List (List AlState) → List AlState →
    Except PEErr (List (List AlState) × List AlState × List Event)
  | [], incoming =>
    if incoming.isEmpty then Except.ok ([], [], [])
    else Except.error PEErr.advanceTooFar
  | stage :: rest, incoming =>
    match processStage rest.isEmpty (stage ++ incoming) with
    | Except.error e => Except.error e
    | Except.ok (rem, mov, comp, evs) =>
      match runPipeline rest mov with
      | Except.error e => Except.error e
      | Except.ok (rest', comps, evs') =>
        Except.ok (rem :: rest', comp ++ comps, evs ++ evs')

/-- Phase B over the pipeline table: process each stream's pipeline in turn.
Returns the new table, all completed entries, and the events. -/
def phaseBrun : List (Nat × List (List AlState)) →
    Except PEErr (List (Nat × List (List AlState)) × List AlState × List Event)
  | [] => Except.ok ([], [], [])
  | (stream, stages) :: rest =>
    match runPipeline stages [] with
    | Except.error e => Except.error e
    | Except.ok (stages', comp, evs) =>
      match phaseBrun rest with
      | Except.error e => Except.error e
      | Except.ok (rest', comps, evs') =>
        Except.ok ((stream, stages') :: rest', comp ++ comps, evs ++ evs')

/-- Number of bounded operations in a list. -/
def boundedCount (l : List AlState) : Nat :=
  (l.filter (fun r => r.runType = RunType.bounded)).length

/-- Contribution of one operation to a bounded count. -/
def bbit (r : AlState) : Nat :=
  if r.runType = RunType.bounded then 1 else 0

/-- One full iteration of the worker loop body: Phase A (admission) then
Phase B (stepping).  `num_bounded` is decremented once per bounded
completion; the source decrements at each `complete`, but `num_bounded` is
only read again in the next Phase A, so the batch update is observationally
identical. -/
def enginePass (cfg : Config) (S : PEState) : Except PEErr PEState :=
  match phaseBrun (phaseA cfg S).run_queues with
  | Except.error e => Except.error e
  | Except.ok (rq', comps, evs) =>
    Except.ok { phaseA cfg S with
      run_queues := rq'
      num_bounded := (phaseA cfg S).num_bounded - boundedCount comps
      trace := (phaseA cfg S).trace ++ evs }

/-- The worker's main loop, with fuel bounding the number of iterations:
`stop_flag` is read (acquire) at the top of each iteration; while it is
clear, one pass runs.  Returns the final state and the number of passes
performed. -/
def engineLoop (cfg : Config) : Nat → PEState → Except PEErr (PEState × Nat)
  | 0, S => Except.ok (S, 0)
  | fuel + 1, S =>
    if S.stop_flag then Except.ok (S, 0)
    else
      match enginePass cfg S with
      | Except.error e => Except.error e
      | Except.ok S' =>
        match engineLoop cfg fuel S' with
        | Except.error e => Except.error e
        | Except.ok (S'', n) => Except.ok (S'', n + 1)

/-! ## hwloc bitmap serialization (topology binder helpers) -/

/-- Bits per machine word: `sizeof(unsigned long) * 8` on an LP64 platform. -/
def bitsPerUlong : Nat := 64

/-- A (finite) hwloc bitmap, modelled as the set of set bit indices. -/
abbrev HwBitmap := Finset Nat

/-- `hwloc_bitmap_last`: index of the highest set bit, `-1` when empty.
(For an infinite bitmap hwloc also returns `-1`; `get_bitmap_len` in the
source throws in that case, and the model covers finite bitmaps only.) -/
def bitmap_last (b : HwBitmap) : Int :=
  if h : b.Nonempty then (b.max' h : Nat) else -1

/-- `get_bitmap_len` from the source: the number of machine-word masks used
to serialize a bitmap, computed as `(last + bits_per_ulong - 1) /
bits_per_ulong` with C integer division (both operands are nonnegative here,
so all division conventions agree). -/
def get_bitmap_len (b : HwBitmap) : Int :=
  (bitmap_last b + (bitsPerUlong : Int) - 1) / (bitsPerUlong : Int)

/-- `hwloc_bitmap_to_ith_ulong`: machine word `i` of the bitmap. -/
def bitmap_to_ith_ulong (b : HwBitmap) (i : Nat) : Nat :=
  ((Finset.range bitsPerUlong).filter (fun j => i * bitsPerUlong + j ∈ b)).sum
    (fun j => 2 ^ j)

/-- `bitmap_to_ulongs` from the source: serialize words `0, …, nr-1`. -/
def bitmap_to_ulongs (b : HwBitmap) (nr : Nat) : List Nat :=
  (List.range nr).map (bitmap_to_ith_ulong b)

/-- `hwloc_bitmap_set_ith_ulong`: replace machine word `i` of the bitmap. -/
def bitmap_set_ith_ulong (b : HwBitmap) (i : Nat) (mask : Nat) : HwBitmap :=
  (b.filter (fun k => k / bitsPerUlong ≠ i)) ∪
    ((Finset.range bitsPerUlong).filter (fun j => mask.testBit j)).image
      (fun j => i * bitsPerUlong + j)

/-- Helper for `bitmap_from_ulongs`: set words `i, i+1, …` from the list. -/
def bitmap_from_ulongs_aux : HwBitmap → Nat → List Nat → HwBitmap
  | b, _, [] => b
  | b, i, m :: rest => bitmap_from_ulongs_aux (bitmap_set_ith_ulong b i m) (i + 1) rest

/-- `bitmap_from_ulongs` from the source, applied (as in
`local_exchange_hwloc_bitmaps`) to a freshly allocated — hence empty —
bitmap. -/
def bitmap_from_ulongs (masks : List Nat) : HwBitmap :=
  bitmap_from_ulongs_aux ∅ 0 masks

/-- The serialize/deserialize round trip performed for every peer by
`local_exchange_hwloc_bitmaps`: extract `get_bitmap_len` words with
`bitmap_to_ulongs`, rebuild with `bitmap_from_ulongs`. -/
def bitmap_roundtrip (b : HwBitmap) : HwBitmap :=
  bitmap_from_ulongs (bitmap_to_ulongs b (get_bitmap_len b).toNat)

/-! ## Observables used to state the claims -/

/-- The ids of the `start()` calls, in order, extracted from the trace. -/
def startEvents (t : List Event) : List Nat :=
  t.filterMap (fun e => match e with | Event.start i => some i | _ => none)

/-- The ids enqueued on a given stream, in order, extracted from the trace. -/
def enqEventsOn (stream : Nat) (t : List Event) : List Nat :=
  t.filterMap (fun e => match e with
    | Event.enq i s => if s = stream then some i else none
    | _ => none)

/-- The ids of the `step()` calls recorded in an event list. -/
def steppedIds (evs : List Event) : List Nat :=
  evs.filterMap (fun e => match e with | Event.stepped i => some i | _ => none)

/-- The identities of the operations in a list. -/
def opids (l : List AlState) : List Nat := l.map AlState.opid

/-- The contents of the input queue in a registry slot. -/
def slotQueue (S : PEState) (slot : Nat) : List AlState :=
  match S.request_queues.get? slot with
  | some iq => iq.q
  | none => []

/-- The compute streams of the registry slots, in slot order. -/
def queueStreams (S : PEState) : List Nat :=
  S.request_queues.map InputQueue.compute_stream

/-- Number of streams whose pipeline stage 0 is empty. -/
def emptyStage0Streams (S : PEState) : Nat :=
  (S.run_queues.filter (fun p => (p.2.headD []).isEmpty)).length

/-- Number of bounded operations in stage 0 of one pipeline. -/
def stage0Bounded (stages : List (List AlState)) : Nat :=
  boundedCount (stages.headD [])

/-- Number of bounded operations anywhere in one pipeline. -/
def pipeBounded (stages : List (List AlState)) : Nat :=
  (stages.map boundedCount).sum

/-- Total bounded operations in stage 0, over a pipeline table. -/
def rqStage0Sum (rq : List (Nat × List (List AlState))) : Nat :=
  (rq.map (fun row => stage0Bounded row.2)).sum

/-- Total bounded operations anywhere in the pipelines of a table. -/
def rqPipeSum (rq : List (Nat × List (List AlState))) : Nat :=
  (rq.map (fun row => pipeBounded row.2)).sum

/-- Per-stream excess of bounded operations in stage 0 beyond the first,
summed over the table. -/
def rqExcess (rq : List (Nat × List (List AlState))) : Nat :=
  (rq.map (fun row => stage0Bounded row.2 - 1)).sum

/-- Total bounded operations resident in stage 0 of any pipeline. -/
def totalStage0Bounded (S : PEState) : Nat := rqStage0Sum S.run_queues

/-- Total bounded operations resident anywhere in any pipeline. -/
def totalPipelineBounded (S : PEState) : Nat := rqPipeSum S.run_queues

/-- Number of streams whose pipeline stage 0 contains at least one bounded
operation. -/
def boundedStage0Streams (S : PEState) : Nat :=
  (S.run_queues.filter (fun row => 0 < stage0Bounded row.2)).length

/-- Inductive invariant of the worker state: `num_bounded` counts exactly
the bounded operations resident in pipelines, and the per-stream excess of
stage-0 bounded operations is bounded by the concurrency cap. -/
def EngineInv (cfg : Config) (S : PEState) : Prop :=
  S.num_bounded = totalPipelineBounded S ∧ rqExcess S.run_queues ≤ cfg.cap

/-- States reachable from the constructor state by any interleaving of
submitter calls (`enqueue`), lifecycle calls (`run`, `stop`), and worker
loop iterations (`enginePass`). -/
inductive Reachable (cfg : Config) : PEState → Prop where
  | init : Reachable cfg (initState cfg)
  | enq {S S' : PEState} {tid : Nat} {st : AlState} :
      Reachable cfg S → enqueue cfg tid st S = Except.ok S' → Reachable cfg S'
  | lifecycleRun {S : PEState} : Reachable cfg S → Reachable cfg (run cfg S)
  | lifecycleStop {S S' : PEState} :
      Reachable cfg S → stop S = Except.ok S' → Reachable cfg S'
  | pass {S S' : PEState} :
      Reachable cfg S → enginePass cfg S = Except.ok S' → Reachable cfg S'

/-- The Phase A admission condition of the source, as a proposition: an
unbounded head is always admitted; a bounded head is admitted iff
`num_bounded < cap`, or no pipeline row exists for its stream, or that row's
stage 0 is empty. -/
def AdmitCondition (cfg : Config) (S : PEState) (req : AlState) : Prop :=
  req.runType = RunType.unbounded
  ∨ S.num_bounded < cfg.cap
  ∨ rqContains S.run_queues req.stream = false
  ∨ stage0Of S.run_queues req.stream = []

/-! ## Concrete scenarios used by the counterexamples and witnesses -/

/-- Configuration with the stream-queue cache and `AL_THREAD_MULTIPLE`. -/
def cfgCacheMT : Config :=
  { cap := 10, numStages := 2, queueCapacity := 8, cacheEnabled := true,
    threadMultiple := true, onDemand := false, addDefaultStream := false }

/-- The same configuration with the cache (and thread multiplicity) off. -/
def cfgNoCache : Config :=
  { cfgCacheMT with cacheEnabled := false, threadMultiple := false }

/-- Configuration with a concurrency cap of 1 (no cache, single submitter). -/
def cfgCap1 : Config :=
  { cap := 1, numStages := 2, queueCapacity := 8, cacheEnabled := false,
    threadMultiple := false, onDemand := false, addDefaultStream := false }

/-- `cfgCap1` with `AL_PE_START_ON_DEMAND`. -/
def cfgOnDemand : Config := { cfgCap1 with onDemand := true }

/-- Three unbounded operations on the same stream 7. -/
def stA : AlState :=
  { opid := 1, stream := 7, runType := RunType.unbounded, script := [PEAction.complete] }

/-- Second operation on stream 7. -/
def stB : AlState :=
  { opid := 2, stream := 7, runType := RunType.unbounded, script := [PEAction.complete] }

/-- Third operation on stream 7, submitted by a different thread. -/
def stC : AlState :=
  { opid := 3, stream := 7, runType := RunType.unbounded, script := [PEAction.complete] }

/-- A bounded operation that advances out of stage 0 and then polls. -/
def bAdv : AlState :=
  { opid := 1, stream := 5, runType := RunType.bounded,
    script := [PEAction.advance, PEAction.cont, PEAction.cont] }

/-- A bounded operation that keeps polling. -/
def bPoll : AlState :=
  { opid := 2, stream := 5, runType := RunType.bounded,
    script := [PEAction.cont, PEAction.cont, PEAction.cont] }

/-- An unbounded operation whose first step advances and second continues. -/
def uAdvCont : AlState :=
  { opid := 9, stream := 3, runType := RunType.unbounded,
    script := [PEAction.advance, PEAction.cont] }

/-- An operation whose next step advances (used at the last stage). -/
def uAdv : AlState :=
  { opid := 4, stream := 3, runType := RunType.unbounded, script := [PEAction.advance] }

/-- `uAdvCont` after its first step has been consumed. -/
def uAdvContStepped : AlState :=
  { opid := 9, stream := 3, runType := RunType.unbounded, script := [PEAction.cont] }

/-- Scenario for the per-stream FIFO claim, cache enabled: thread 1 enqueues
ops 1 and 2 on stream 7, thread 2 enqueues op 3 on stream 7, then the worker
runs three passes. -/
def fifoCacheRun : Except PEErr PEState := do
  let s₁ ← enqueue cfgCacheMT 1 stA (initState cfgCacheMT)
  let s₂ ← enqueue cfgCacheMT 1 stB s₁
  let s₃ ← enqueue cfgCacheMT 2 stC s₂
  let s₄ ← enginePass cfgCacheMT s₃
  let s₅ ← enginePass cfgCacheMT s₄
  enginePass cfgCacheMT s₅

/-- The same sequence of submissions without the cache. -/
def fifoPlainRun : Except PEErr PEState := do
  let s₁ ← enqueue cfgNoCache 1 stA (initState cfgNoCache)
  let s₂ ← enqueue cfgNoCache 1 stB s₁
  let s₃ ← enqueue cfgNoCache 2 stC s₂
  let s₄ ← enginePass cfgNoCache s₃
  let s₅ ← enginePass cfgNoCache s₄
  enginePass cfgNoCache s₅

/-- Scenario for the one-queue-per-stream claim, cache enabled: two distinct
threads each enqueue one op on stream 7. -/
def dupCacheRun : Except PEErr PEState := do
  let s₁ ← enqueue cfgCacheMT 1 stA (initState cfgCacheMT)
  enqueue cfgCacheMT 2 stC s₁

/-- The same two submissions without the cache. -/
def dupPlainRun : Except PEErr PEState := do
  let s₁ ← enqueue cfgNoCache 1 stA (initState cfgNoCache)
  enqueue cfgNoCache 2 stC s₁

/-- Scenario for the bounded-cap claim with `cap = 1`: a bounded op is
admitted and advances to stage 1; a second bounded op on the same stream is
then admitted through the empty-stage-0 waiver. -/
def capRun : Except PEErr PEState := do
  let s₁ ← enqueue cfgCap1 0 bAdv (initState cfgCap1)
  let s₂ ← enginePass cfgCap1 s₁
  let s₃ ← enqueue cfgCap1 0 bPoll s₂
  enginePass cfgCap1 s₃

/-- A state whose lone pipeline holds one operation in stage 0 of a 2-stage
pipeline; the operation's next step advances. -/
def advState : PEState := { run_queues := [(3, [[uAdvCont], []])] }

/-- A state with one input queue holding a pending bounded operation (used
as the admission witness). -/
def admWitState : PEState := { request_queues := [{ compute_stream := 5, q := [bPoll] }] }

/-! ## Helper lemmas: preservation of `stop_flag` -/

theorem run_stop_flag (cfg : Config) (S : PEState) :
    (run cfg S).stop_flag = S.stop_flag := by
  unfold run workerEntry
  split
  · rfl
  · split <;> rfl

theorem pushSlot_stop_flag (S : PEState) (i : Nat) (st : AlState) :
    (pushSlot S i st).stop_flag = S.stop_flag := rfl

theorem cacheUpd_stop_flag (cfg : Config) (tid stream slot : Nat) (S : PEState) :
    (cacheUpd cfg tid stream slot S).stop_flag = S.stop_flag := by
  unfold cacheUpd
  split <;> rfl

theorem enqueueCreate_stop_flag {cfg : Config} {tid : Nat} {st : AlState}
    {S S' : PEState} {k : Nat} (h : enqueueCreate cfg tid st S k = Except.ok S') :
    S'.stop_flag = S.stop_flag := by
  unfold enqueueCreate at h
  split at h
  · cases h
    rw [cacheUpd_stop_flag, pushSlot_stop_flag]
  · split at h
    · cases h
    · cases h
      rw [cacheUpd_stop_flag, pushSlot_stop_flag]

theorem maybeStartOnDemand_stop_flag (cfg : Config) (S : PEState) :
    (maybeStartOnDemand cfg S).stop_flag = S.stop_flag := by
  unfold maybeStartOnDemand
  split
  · exact run_stop_flag cfg S
  · rfl

theorem enqueueBody_stop_flag {cfg : Config} {tid : Nat} {st : AlState}
    {S S' : PEState} (h : enqueueBody cfg tid st S = Except.ok S') :
    S'.stop_flag = S.stop_flag := by
  unfold enqueueBody at h
  split at h
  · split at h
    · cases h
      rw [pushSlot_stop_flag]
    · exact enqueueCreate_stop_flag h
  · split at h
    · cases h
      rw [pushSlot_stop_flag]
    · exact enqueueCreate_stop_flag h

theorem enqueue_stop_flag {cfg : Config} {tid : Nat} {st : AlState}
    {S S' : PEState} (h : enqueue cfg tid st S = Except.ok S') :
    S'.stop_flag = S.stop_flag := by
  unfold enqueue at h
  rw [enqueueBody_stop_flag h, maybeStartOnDemand_stop_flag]

theorem doStart_stop_flag (cfg : Config) (S : PEState) (slot : Nat) (req : AlState) :
    (doStart cfg S slot req).stop_flag = S.stop_flag := rfl

theorem phaseAStep_stop_flag (cfg : Config) (S : PEState) (slot : Nat) :
    (phaseAStep cfg S slot).stop_flag = S.stop_flag := by
  unfold phaseAStep
  split
  · rfl
  · split
    · split
      · rw [doStart_stop_flag]
      · rfl
    · rw [doStart_stop_flag]

theorem foldl_phaseAStep_stop_flag (cfg : Config) :
    ∀ (l : List Nat) (S : PEState),
      (l.foldl (phaseAStep cfg) S).stop_flag = S.stop_flag := by
  intro l
  induction l with
  | nil => intro S; rfl
  | cons x xs ih =>
    intro S
    rw [List.foldl_cons, ih, phaseAStep_stop_flag]

theorem phaseA_stop_flag (cfg : Config) (S : PEState) :
    (phaseA cfg S).stop_flag = S.stop_flag := by
  unfold phaseA
  exact foldl_phaseAStep_stop_flag cfg _ S

theorem enginePass_stop_flag {cfg : Config} {S S' : PEState}
    (h : enginePass cfg S = Except.ok S') : S'.stop_flag = S.stop_flag := by
  unfold enginePass at h
  split at h
  · cases h
  · cases h
    exact phaseA_stop_flag cfg S

theorem engineLoop_stopped (cfg : Config) :
    ∀ (fuel : Nat) (S : PEState), S.stop_flag = true →
      engineLoop cfg fuel S = Except.ok (S, 0) := by
  intro fuel S h
  cases fuel <;> simp [engineLoop, h]

/-! ## Helper lemmas: registry and pipeline-table operations -/

theorem assocFind_append_right {α : Type} (rq : List (Nat × α)) (s : Nat) (v : α)
    (h : assocFind rq s = none) : assocFind (rq ++ [(s, v)]) s = some v := by
  induction rq with
  | nil => simp [assocFind]
  | cons p rest ih =>
    rcases p with ⟨k, w⟩
    by_cases hk : k = s
    · simp [assocFind, hk] at h
    · simp only [List.cons_append, assocFind, hk, if_false] at h ⊢
      exact ih h

theorem assocFind_none_of_not_contains {rq : List (Nat × List (List AlState))}
    {s : Nat} (h : rqContains rq s = false) : assocFind rq s = none := by
  unfold rqContains at h
  cases hf : assocFind rq s with
  | none => rfl
  | some v => rw [hf] at h; simp at h

theorem stage0Of_of_not_contains {rq : List (Nat × List (List AlState))} {s : Nat}
    (h : rqContains rq s = false) : stage0Of rq s = [] := by
  unfold stage0Of
  rw [assocFind_none_of_not_contains h]

theorem stage0Of_rqAppendStage0 (rq : List (Nat × List (List AlState))) (s : Nat)
    (req : AlState) (h : rqContains rq s = true) :
    stage0Of (rqAppendStage0 rq s req) s = stage0Of rq s ++ [req] := by
  induction rq with
  | nil => simp [rqContains, assocFind] at h
  | cons p rest ih =>
    rcases p with ⟨k, stages⟩
    by_cases hk : k = s
    · subst hk
      cases stages with
      | nil => simp [rqAppendStage0, stage0Of, assocFind]
      | cons st0 more => simp [rqAppendStage0, stage0Of, assocFind]
    · have h' : rqContains rest s = true := by
        simpa [rqContains, assocFind, hk] using h
      simp only [rqAppendStage0, hk, if_false, stage0Of, assocFind]
      simpa [stage0Of, assocFind] using ih h'

theorem rqContains_rqEnsure (cfg : Config) (rq : List (Nat × List (List AlState)))
    (s : Nat) : rqContains (rqEnsure cfg rq s) s = true := by
  unfold rqEnsure
  by_cases h : rqContains rq s
  · simp [h]
  · have h' : rqContains rq s = false := by simpa using h
    rw [h', if_neg (by simp)]
    unfold rqContains
    rw [assocFind_append_right rq s _ (assocFind_none_of_not_contains h')]
    rfl

theorem stage0Of_rqEnsure_self (cfg : Config) (rq : List (Nat × List (List AlState)))
    (s : Nat) : stage0Of (rqEnsure cfg rq s) s = stage0Of rq s := by
  unfold rqEnsure
  by_cases h : rqContains rq s
  · simp [h]
  · have h' : rqContains rq s = false := by simpa using h
    rw [h', if_neg (by simp)]
    unfold stage0Of
    rw [assocFind_append_right rq s _ (assocFind_none_of_not_contains h'),
        assocFind_none_of_not_contains h']
    cases cfg.numStages <;> simp [List.replicate]

theorem updateSlot_get? (f : List AlState → List AlState) :
    ∀ (qs : List InputQueue) (i : Nat),
      (updateSlot f qs i).get? i = (qs.get? i).map (fun iq => { iq with q := f iq.q }) := by
  intro qs
  induction qs with
  | nil => intro i; cases i <;> rfl
  | cons x rest ih =>
    intro i
    cases i with
    | zero => rfl
    | succ j => simpa [updateSlot] using ih j

theorem doStart_observables (cfg : Config) (S : PEState) (slot : Nat) (req : AlState) :
    stage0Of (doStart cfg S slot req).run_queues req.stream
      = stage0Of S.run_queues req.stream ++ [req]
    ∧ slotQueue (doStart cfg S slot req) slot = (slotQueue S slot).tail
    ∧ (doStart cfg S slot req).num_bounded = S.num_bounded
    ∧ (doStart cfg S slot req).trace
        = S.trace ++ [Event.appendStage0 req.opid, Event.start req.opid,
                      Event.popQueue slot] := by
  unfold doStart
  refine ⟨?_, ?_, rfl, rfl⟩
  · rw [stage0Of_rqAppendStage0 _ _ _ (rqContains_rqEnsure cfg S.run_queues req.stream),
        stage0Of_rqEnsure_self]
  · unfold slotQueue popSlot
    rw [updateSlot_get?]
    cases S.request_queues.get? slot <;> rfl

/-! ## Helper lemmas: a last-stage advance faults in the forward pass -/

theorem forwardPass_last_advance (r : AlState)
    (hp : r.paused_for_advance = false)
    (ha : r.script.headD PEAction.cont = PEAction.advance) :
    ∀ (l₁ l₂ : List AlState) (atHead : Bool),
      forwardPass true atHead (l₁ ++ r :: l₂) = Except.error PEErr.advanceTooFar := by
  intro l₁
  induction l₁ with
  | nil =>
    intro l₂ atHead
    have hstep : stepOp r = (PEAction.advance, { r with script := r.script.tail }) := by
      unfold stepOp
      rw [ha]
    simp [forwardPass, hp, hstep]
  | cons x xs ih =>
    intro l₂ atHead
    simp only [List.cons_append, forwardPass]
    by_cases hx : x.paused_for_advance
    · simp [hx, ih l₂ false]
    · rcases hso : stepOp x with ⟨a, x'⟩
      cases a
      · simp [hx, hso, ih l₂ false]
      · simp [hx, hso]
      · simp [hx, hso, ih l₂ atHead]

/-! ## Helper lemmas: step events of a stage visit -/

theorem steppedIds_forwardPass {isLast : Bool} :
    ∀ {l : List AlState} {atHead : Bool} {kept mov comp : List AlState}
      {evs : List Event},
      forwardPass isLast atHead l = Except.ok (kept, mov, comp, evs) →
      (steppedIds evs).Sublist (opids l) := by
  intro l
  induction l with
  | nil =>
    intro atHead kept mov comp evs h
    simp only [forwardPass] at h
    cases h
    simp [steppedIds, opids]
  | cons r rest ih =>
    intro atHead kept mov comp evs h
    simp only [forwardPass] at h
    split at h
    · split at h
      · cases h
      · rename_i k' m' c' e' heq
        cases h
        exact (ih heq).cons r.opid
    · split at h
      · rename_i r' hso
        split at h
        · cases h
        · rename_i k' m' c' e' heq
          cases h
          simpa [steppedIds, opids] using (ih heq).cons₂ r.opid
      · rename_i r' hso
        split at h
        · cases h
        · split at h
          · split at h
            · cases h
            · rename_i k' m' c' e' heq
              cases h
              simpa [steppedIds, opids] using (ih heq).cons₂ r.opid
          · split at h
            · cases h
            · rename_i k' m' c' e' heq
              cases h
              simpa [steppedIds, opids] using (ih heq).cons₂ r.opid
      · rename_i r' hso
        split at h
        · cases h
        · rename_i k' m' c' e' heq
          cases h
          simpa [steppedIds, opids] using (ih heq).cons₂ r.opid

theorem steppedIds_processStage {isLast : Bool} {l rem mov comp : List AlState}
    {evs : List Event}
    (h : processStage isLast l = Except.ok (rem, mov, comp, evs)) :
    (steppedIds evs).Sublist (opids l) := by
  unfold processStage at h
  cases hf : forwardPass isLast true l with
  | error e => rw [hf] at h; cases h
  | ok t =>
    rcases t with ⟨kept, fmov, fcomp, fevs⟩
    rw [hf] at h
    dsimp only at h
    split at h
    · cases h
    · cases h
      exact steppedIds_forwardPass hf

theorem count_stepped (x : Nat) :
    ∀ evs : List Event, evs.count (Event.stepped x) = (steppedIds evs).count x := by
  intro evs
  induction evs with
  | nil => rfl
  | cons e t ih =>
    cases e <;> simp [steppedIds, List.count_cons, ih]

/-! ## Helper lemmas: order preservation of one stage visit -/

theorem opids_map_clear (l : List AlState) :
    opids (l.map (fun r => { r with paused_for_advance := false })) = opids l := by
  unfold opids
  rw [List.map_map]
  rfl

theorem drainPass_eq (l : List AlState) :
    ∃ k, drainPass l
      = (l.drop k, (l.take k).map (fun r => { r with paused_for_advance := false })) := by
  induction l with
  | nil => exact ⟨0, rfl⟩
  | cons r rest ih =>
    by_cases hp : r.paused_for_advance
    · obtain ⟨k, hk⟩ := ih
      exact ⟨k + 1, by simp [drainPass, hp, hk]⟩
    · exact ⟨0, by simp [drainPass, hp]⟩

theorem stepOp_opid (r : AlState) : (stepOp r).2.opid = r.opid := rfl

theorem stepOp_paused (r : AlState) :
    (stepOp r).2.paused_for_advance = r.paused_for_advance := rfl

theorem forwardPass_moved_nil {isLast : Bool} :
    ∀ {l : List AlState} {kept mov comp : List AlState} {evs : List Event},
      forwardPass isLast false l = Except.ok (kept, mov, comp, evs) → mov = [] := by
  intro l
  induction l with
  | nil =>
    intro kept mov comp evs h
    simp only [forwardPass] at h
    cases h
    rfl
  | cons r rest ih =>
    intro kept mov comp evs h
    simp only [forwardPass] at h
    split at h
    · split at h
      · cases h
      · rename_i k' m' c' e' heq
        cases h
        exact ih heq
    · split at h
      · rename_i r' hso
        split at h
        · cases h
        · rename_i k' m' c' e' heq
          cases h
          exact ih heq
      · rename_i r' hso
        split at h
        · cases h
        · split at h
          · rename_i hff
            simp at hff
          · split at h
            · cases h
            · rename_i k' m' c' e' heq
              cases h
              exact ih heq
      · rename_i r' hso
        split at h
        · cases h
        · rename_i k' m' c' e' heq
          cases h
          exact ih heq

theorem forwardPass_kept_sublist {isLast : Bool} :
    ∀ {l : List AlState} {atHead : Bool} {kept mov comp : List AlState}
      {evs : List Event},
      forwardPass isLast atHead l = Except.ok (kept, mov, comp, evs) →
      (opids kept).Sublist (opids l) := by
  intro l
  induction l with
  | nil =>
    intro atHead kept mov comp evs h
    simp only [forwardPass] at h
    cases h
    exact List.Sublist.refl _
  | cons r rest ih =>
    intro atHead kept mov comp evs h
    simp only [forwardPass] at h
    split at h
    · split at h
      · cases h
      · rename_i k' m' c' e' heq
        cases h
        exact (ih heq).cons₂ r.opid
    · split at h
      · rename_i r' hso
        have hid : r'.opid = r.opid := by
          have := congrArg (fun p => p.2.opid) hso
          simpa [stepOp] using this.symm
        split at h
        · cases h
        · rename_i k' m' c' e' heq
          cases h
          simpa [opids, hid] using (ih heq).cons₂ r.opid
      · rename_i r' hso
        have hid : r'.opid = r.opid := by
          have := congrArg (fun p => p.2.opid) hso
          simpa [stepOp] using this.symm
        split at h
        · cases h
        · split at h
          · split at h
            · cases h
            · rename_i k' m' c' e' heq
              cases h
              exact (ih heq).cons r.opid
          · split at h
            · cases h
            · rename_i k' m' c' e' heq
              cases h
              simpa [opids, hid] using (ih heq).cons₂ r.opid
      · rename_i r' hso
        split at h
        · cases h
        · rename_i k' m' c' e' heq
          cases h
          exact (ih heq).cons r.opid

theorem forwardPass_moved_flags {isLast : Bool} :
    ∀ {l : List AlState} {atHead : Bool} {kept mov comp : List AlState}
      {evs : List Event},
      forwardPass isLast atHead l = Except.ok (kept, mov, comp, evs) →
      ∀ m ∈ mov, m.paused_for_advance = false := by
  intro l
  induction l with
  | nil =>
    intro atHead kept mov comp evs h
    simp only [forwardPass] at h
    cases h
    intro m hm
    cases hm
  | cons r rest ih =>
    intro atHead kept mov comp evs h
    simp only [forwardPass] at h
    split at h
    · split at h
      · cases h
      · rename_i k' m' c' e' heq
        cases h
        exact ih heq
    · rename_i hp
      split at h
      · rename_i r' hso
        split at h
        · cases h
        · rename_i k' m' c' e' heq
          cases h
          exact ih heq
      · rename_i r' hso
        have hpa : r'.paused_for_advance = false := by
          have := congrArg (fun p => p.2.paused_for_advance) hso
          simp only [stepOp] at this
          rw [← this]
          simpa using hp
        split at h
        · cases h
        · split at h
          · split at h
            · cases h
            · rename_i k' m' c' e' heq
              cases h
              intro m hm
              cases List.mem_cons.mp hm with
              | inl he => rw [he]; exact hpa
              | inr hm' => exact ih heq m hm'
          · split at h
            · cases h
            · rename_i k' m' c' e' heq
              cases h
              exact ih heq
      · rename_i r' hso
        split at h
        · cases h
        · rename_i k' m' c' e' heq
          cases h
          exact ih heq

theorem forwardPass_split {isLast : Bool} :
    ∀ {l : List AlState} {kept mov comp : List AlState} {evs : List Event},
      forwardPass isLast true l = Except.ok (kept, mov, comp, evs) →
      ∃ l₁ l₂, l = l₁ ++ l₂ ∧ (opids mov).Sublist (opids l₁)
        ∧ (opids kept).Sublist (opids l₂) := by
  intro l
  induction l with
  | nil =>
    intro kept mov comp evs h
    simp only [forwardPass] at h
    cases h
    exact ⟨[], [], rfl, List.Sublist.refl _, List.Sublist.refl _⟩
  | cons r rest ih =>
    intro kept mov comp evs h
    simp only [forwardPass] at h
    split at h
    · split at h
      · cases h
      · rename_i k' m' c' e' heq
        cases h
        refine ⟨[], r :: rest, rfl, ?_, ?_⟩
        · rw [forwardPass_moved_nil heq]
        · exact (forwardPass_kept_sublist heq).cons₂ r.opid
    · split at h
      · rename_i r' hso
        have hid : r'.opid = r.opid := by
          have := congrArg (fun p => p.2.opid) hso
          simpa [stepOp] using this.symm
        split at h
        · cases h
        · rename_i k' m' c' e' heq
          cases h
          refine ⟨[], r :: rest, rfl, ?_, ?_⟩
          · rw [forwardPass_moved_nil heq]
          · simpa [opids, hid] using (forwardPass_kept_sublist heq).cons₂ r.opid
      · rename_i r' hso
        have hid : r'.opid = r.opid := by
          have := congrArg (fun p => p.2.opid) hso
          simpa [stepOp] using this.symm
        split at h
        · cases h
        · simp only [if_true] at h
          split at h
          · cases h
          · rename_i k' m' c' e' heq
            cases h
            obtain ⟨l₁', l₂', hsplit, hmov, hkept⟩ := ih heq
            refine ⟨r :: l₁', l₂', by rw [hsplit]; rfl, ?_, hkept⟩
            simpa [opids, hid] using hmov.cons₂ r.opid
      · rename_i r' hso
        split at h
        · cases h
        · rename_i k' m' c' e' heq
          cases h
          obtain ⟨l₁', l₂', hsplit, hmov, hkept⟩ := ih heq
          refine ⟨r :: l₁', l₂', by rw [hsplit]; rfl, ?_, hkept⟩
          exact hmov.cons r.opid

theorem opids_append (a b : List AlState) : opids (a ++ b) = opids a ++ opids b :=
  List.map_append _ _ _

theorem opids_take (k : Nat) (l : List AlState) :
    opids (l.take k) = (opids l).take k := by
  unfold opids
  rw [List.map_take]

theorem opids_drop (k : Nat) (l : List AlState) :
    opids (l.drop k) = (opids l).drop k := by
  unfold opids
  rw [List.map_drop]

theorem indexOf_append_lt {A B : List Nat} {x y : Nat}
    (hnd : (A ++ B).Nodup) (hx : x ∈ A) (hy : y ∈ B) :
    (A ++ B).indexOf x < (A ++ B).indexOf y := by
  have hyA : y ∉ A := fun hyA => (List.disjoint_of_nodup_append hnd) hyA hy
  rw [List.indexOf_append_of_mem hx, List.indexOf_append_of_not_mem hyA]
  have h1 : List.indexOf x A < A.length := List.indexOf_lt_length.mpr hx
  omega

theorem sublist_indexOf_lt :
    ∀ {s t : List Nat}, s.Sublist t → t.Nodup →
      ∀ {x y : Nat}, x ∈ s → y ∈ s → s.indexOf x < s.indexOf y →
        t.indexOf x < t.indexOf y := by
  intro s t hsub
  induction hsub with
  | slnil =>
    intro _ x y hx _ _
    cases hx
  | cons a hs ih =>
    intro hnd x y hx hy hlt
    have hnd' := hnd.of_cons
    have hat := (List.nodup_cons.mp hnd).1
    have hax : a ≠ x := fun h => hat (h ▸ hs.subset hx)
    have hay : a ≠ y := fun h => hat (h ▸ hs.subset hy)
    rw [List.indexOf_cons_ne _ hax, List.indexOf_cons_ne _ hay]
    exact Nat.succ_lt_succ (ih hnd' hx hy hlt)
  | cons₂ a hs ih =>
    rename_i l₁ l₂
    intro hnd x y hx hy hlt
    have hnd' := hnd.of_cons
    have hat := (List.nodup_cons.mp hnd).1
    by_cases hxa : x = a
    · subst hxa
      have hyx : y ≠ x := by
        intro hyx
        subst hyx
        rw [List.indexOf_cons_self] at hlt
        exact absurd hlt (Nat.not_lt_zero _)
      rw [List.indexOf_cons_self, List.indexOf_cons_ne _ (fun h => hyx h.symm)]
      exact Nat.succ_pos _
    · have hax : x ≠ a := hxa
      have hxl : x ∈ l₁ := by
        rcases List.mem_cons.mp hx with he | hm
        · exact absurd he hxa
        · exact hm
      by_cases hya : y = a
      · subst hya
        rw [List.indexOf_cons_self] at hlt
        exact absurd hlt (Nat.not_lt_zero _)
      · have hyl : y ∈ l₁ := by
          rcases List.mem_cons.mp hy with he | hm
          · exact absurd he hya
          · exact hm
        rw [List.indexOf_cons_ne _ (fun h => hxa h.symm),
            List.indexOf_cons_ne _ (fun h => hya h.symm)] at hlt ⊢
        exact Nat.succ_lt_succ (ih hnd' hxl hyl (Nat.lt_of_succ_lt_succ hlt))

/-! ## Helper lemmas: bounded-operation counting -/

theorem boundedCount_cons (r : AlState) (l : List AlState) :
    boundedCount (r :: l) = bbit r + boundedCount l := by
  unfold boundedCount bbit
  by_cases hr : r.runType = RunType.bounded <;>
    simp [List.filter_cons, hr, Nat.add_comm]

theorem boundedCount_append (a b : List AlState) :
    boundedCount (a ++ b) = boundedCount a + boundedCount b := by
  unfold boundedCount
  rw [List.filter_append, List.length_append]

theorem boundedCount_map_clear (l : List AlState) :
    boundedCount (l.map (fun r => { r with paused_for_advance := false }))
      = boundedCount l := by
  induction l with
  | nil => rfl
  | cons r rest ih => simp [boundedCount_cons, ih]; rfl

theorem forwardPass_boundedCount {isLast : Bool} :
    ∀ {l : List AlState} {atHead : Bool} {kept mov comp : List AlState}
      {evs : List Event},
      forwardPass isLast atHead l = Except.ok (kept, mov, comp, evs) →
      boundedCount l = boundedCount kept + boundedCount mov + boundedCount comp := by
  intro l
  induction l with
  | nil =>
    intro atHead kept mov comp evs h
    simp only [forwardPass] at h
    cases h
    rfl
  | cons r rest ih =>
    intro atHead kept mov comp evs h
    simp only [forwardPass] at h
    split at h
    · split at h
      · cases h
      · rename_i k' m' c' e' heq
        cases h
        have hrec := ih heq
        simp only [boundedCount_cons]
        omega
    · split at h
      · rename_i r' hso
        have hbb : bbit r' = bbit r := by
          have := congrArg (fun p => p.2.runType) hso
          simp only [stepOp] at this
          unfold bbit
          rw [← this]
        split at h
        · cases h
        · rename_i k' m' c' e' heq
          cases h
          have hrec := ih heq
          simp only [boundedCount_cons, hbb]
          omega
      · rename_i r' hso
        have hbb : bbit r' = bbit r := by
          have := congrArg (fun p => p.2.runType) hso
          simp only [stepOp] at this
          unfold bbit
          rw [← this]
        split at h
        · cases h
        · split at h
          · split at h
            · cases h
            · rename_i k' m' c' e' heq
              cases h
              have hrec := ih heq
              simp only [boundedCount_cons, hbb]
              omega
          · split at h
            · cases h
            · rename_i k' m' c' e' heq
              cases h
              have hrec := ih heq
              have hbb2 : bbit { r' with paused_for_advance := true } = bbit r := by
                rw [← hbb]
                rfl
              simp only [boundedCount_cons, hbb2]
              omega
      · rename_i r' hso
        have hbb : bbit r' = bbit r := by
          have := congrArg (fun p => p.2.runType) hso
          simp only [stepOp] at this
          unfold bbit
          rw [← this]
        split at h
        · cases h
        · rename_i k' m' c' e' heq
          cases h
          have hrec := ih heq
          simp only [boundedCount_cons, hbb]
          omega

theorem processStage_boundedCount {isLast : Bool} {l rem mov comp : List AlState}
    {evs : List Event}
    (h : processStage isLast l = Except.ok (rem, mov, comp, evs)) :
    boundedCount l = boundedCount rem + boundedCount mov + boundedCount comp := by
  unfold processStage at h
  cases hf : forwardPass isLast true l with
  | error e => rw [hf] at h; cases h
  | ok t =>
    rcases t with ⟨kept, fmov, fcomp, fevs⟩
    rw [hf] at h
    dsimp only at h
    obtain ⟨k, hdr⟩ := drainPass_eq kept
    rw [hdr] at h
    dsimp only at h
    split at h
    · cases h
    · cases h
      have hfc := forwardPass_boundedCount hf
      have hkd : boundedCount kept
          = boundedCount (kept.take k) + boundedCount (kept.drop k) := by
        rw [← boundedCount_append, List.take_append_drop]
      rw [boundedCount_append, boundedCount_map_clear]
      omega

/-! ## Helper lemmas: bounded counts over pipelines and the pipeline table -/

theorem boundedCount_nil : boundedCount [] = 0 := rfl

theorem boundedCount_singleton (r : AlState) : boundedCount [r] = bbit r := by
  rw [boundedCount_cons]
  rfl

theorem pipeBounded_cons (st : List AlState) (rest : List (List AlState)) :
    pipeBounded (st :: rest) = boundedCount st + pipeBounded rest := by
  unfold pipeBounded
  simp

theorem pipeBounded_replicate (n : Nat) : pipeBounded (List.replicate n []) = 0 := by
  induction n with
  | zero => rfl
  | succ m ih => rw [List.replicate_succ, pipeBounded_cons, boundedCount_nil, ih]

theorem stage0Bounded_replicate (n : Nat) :
    stage0Bounded (List.replicate n []) = 0 := by
  cases n <;> rfl

theorem stage0Bounded_le_pipeBounded (stages : List (List AlState)) :
    stage0Bounded stages ≤ pipeBounded stages := by
  cases stages with
  | nil => exact Nat.le_refl _
  | cons st0 more =>
    show boundedCount st0 ≤ pipeBounded (st0 :: more)
    rw [pipeBounded_cons]
    omega

theorem rqPipeSum_cons (row : Nat × List (List AlState))
    (rq : List (Nat × List (List AlState))) :
    rqPipeSum (row :: rq) = pipeBounded row.2 + rqPipeSum rq := by
  unfold rqPipeSum
  simp

theorem rqStage0Sum_cons (row : Nat × List (List AlState))
    (rq : List (Nat × List (List AlState))) :
    rqStage0Sum (row :: rq) = stage0Bounded row.2 + rqStage0Sum rq := by
  unfold rqStage0Sum
  simp

theorem rqExcess_cons (row : Nat × List (List AlState))
    (rq : List (Nat × List (List AlState))) :
    rqExcess (row :: rq) = (stage0Bounded row.2 - 1) + rqExcess rq := by
  unfold rqExcess
  simp

theorem rqPipeSum_ensure (cfg : Config) (rq : List (Nat × List (List AlState)))
    (s : Nat) : rqPipeSum (rqEnsure cfg rq s) = rqPipeSum rq := by
  unfold rqEnsure
  split
  · rfl
  · unfold rqPipeSum
    rw [List.map_append, List.sum_append]
    simp [pipeBounded_replicate]

theorem rqExcess_ensure (cfg : Config) (rq : List (Nat × List (List AlState)))
    (s : Nat) : rqExcess (rqEnsure cfg rq s) = rqExcess rq := by
  unfold rqEnsure
  split
  · rfl
  · unfold rqExcess
    rw [List.map_append, List.sum_append]
    simp [stage0Bounded_replicate]

theorem rqPipeSum_appendStage0 (rq : List (Nat × List (List AlState))) (s : Nat)
    (req : AlState) (h : rqContains rq s = true) :
    rqPipeSum (rqAppendStage0 rq s req) = rqPipeSum rq + bbit req := by
  induction rq with
  | nil => simp [rqContains, assocFind] at h
  | cons row rest ih =>
    rcases row with ⟨k, stages⟩
    by_cases hk : k = s
    · subst hk
      cases stages with
      | nil =>
        simp only [rqAppendStage0, eq_self_iff_true, if_true]
        rw [rqPipeSum_cons, rqPipeSum_cons]
        dsimp only
        have h1 : pipeBounded [[req]] = bbit req := by
          rw [pipeBounded_cons, boundedCount_singleton]
          rfl
        have h2 : pipeBounded ([] : List (List AlState)) = 0 := rfl
        omega
      | cons st0 more =>
        simp only [rqAppendStage0, eq_self_iff_true, if_true]
        rw [rqPipeSum_cons, rqPipeSum_cons]
        dsimp only
        have h1 : pipeBounded ((st0 ++ [req]) :: more)
            = pipeBounded (st0 :: more) + bbit req := by
          rw [pipeBounded_cons, pipeBounded_cons, boundedCount_append,
              boundedCount_singleton]
          omega
        omega
    · have h' : rqContains rest s = true := by
        simpa [rqContains, assocFind, hk] using h
      simp only [rqAppendStage0, if_neg hk]
      rw [rqPipeSum_cons, rqPipeSum_cons, ih h']
      omega

theorem stage0Of_cons_ne {k s : Nat} (stages : List (List AlState))
    (rest : List (Nat × List (List AlState))) (hk : k ≠ s) :
    stage0Of ((k, stages) :: rest) s = stage0Of rest s := by
  simp [stage0Of, assocFind, hk]

theorem stage0Of_cons_self (s : Nat) (stages : List (List AlState))
    (rest : List (Nat × List (List AlState))) :
    stage0Of ((s, stages) :: rest) s = stages.headD [] := by
  simp [stage0Of, assocFind]

theorem bbit_le_one (req : AlState) : bbit req ≤ 1 := by
  unfold bbit
  split <;> omega

theorem rqExcess_appendStage0_zero (rq : List (Nat × List (List AlState)))
    (s : Nat) (req : AlState) (h0 : stage0Of rq s = []) :
    rqExcess (rqAppendStage0 rq s req) = rqExcess rq := by
  induction rq with
  | nil => rfl
  | cons row rest ih =>
    rcases row with ⟨k, stages⟩
    by_cases hk : k = s
    · subst hk
      rw [stage0Of_cons_self] at h0
      cases stages with
      | nil =>
        simp only [rqAppendStage0, eq_self_iff_true, if_true]
        rw [rqExcess_cons, rqExcess_cons]
        dsimp only
        have h1 : stage0Bounded [[req]] = bbit req := boundedCount_singleton req
        have h2 : stage0Bounded ([] : List (List AlState)) = 0 := rfl
        have h3 := bbit_le_one req
        omega
      | cons st0 more =>
        simp only [List.headD_cons] at h0
        subst h0
        simp only [rqAppendStage0, eq_self_iff_true, if_true]
        rw [rqExcess_cons, rqExcess_cons]
        dsimp only
        have h1 : stage0Bounded (([] ++ [req]) :: more) = bbit req := by
          show boundedCount ([] ++ [req]) = bbit req
          rw [List.nil_append, boundedCount_singleton]
        have h2 : stage0Bounded (([] : List AlState) :: more) = 0 := rfl
        have h3 := bbit_le_one req
        omega
    · rw [stage0Of_cons_ne _ _ hk] at h0
      simp only [rqAppendStage0, if_neg hk]
      rw [rqExcess_cons, rqExcess_cons, ih h0]

theorem rqExcess_appendStage0_unbounded (rq : List (Nat × List (List AlState)))
    (s : Nat) (req : AlState) (hb : bbit req = 0) :
    rqExcess (rqAppendStage0 rq s req) = rqExcess rq := by
  induction rq with
  | nil => rfl
  | cons row rest ih =>
    rcases row with ⟨k, stages⟩
    by_cases hk : k = s
    · subst hk
      cases stages with
      | nil =>
        simp only [rqAppendStage0, eq_self_iff_true, if_true]
        rw [rqExcess_cons, rqExcess_cons]
        dsimp only
        have h1 : stage0Bounded [[req]] = bbit req := boundedCount_singleton req
        have h2 : stage0Bounded ([] : List (List AlState)) = 0 := rfl
        omega
      | cons st0 more =>
        simp only [rqAppendStage0, eq_self_iff_true, if_true]
        rw [rqExcess_cons, rqExcess_cons]
        dsimp only
        have h1 : stage0Bounded ((st0 ++ [req]) :: more)
            = boundedCount st0 + bbit req := by
          show boundedCount (st0 ++ [req]) = boundedCount st0 + bbit req
          rw [boundedCount_append, boundedCount_singleton]
        have h2 : stage0Bounded (st0 :: more) = boundedCount st0 := rfl
        omega
    · simp only [rqAppendStage0, if_neg hk]
      rw [rqExcess_cons, rqExcess_cons, ih]

theorem rqExcess_le_stage0Sum (rq : List (Nat × List (List AlState))) :
    rqExcess rq ≤ rqStage0Sum rq := by
  induction rq with
  | nil => exact Nat.le_refl _
  | cons row rest ih =>
    rw [rqExcess_cons, rqStage0Sum_cons]
    omega

theorem rqStage0Sum_le_pipeSum (rq : List (Nat × List (List AlState))) :
    rqStage0Sum rq ≤ rqPipeSum rq := by
  induction rq with
  | nil => exact Nat.le_refl _
  | cons row rest ih =>
    rw [rqStage0Sum_cons, rqPipeSum_cons]
    have := stage0Bounded_le_pipeBounded row.2
    omega

theorem runPipeline_boundedCount :
    ∀ {stages : List (List AlState)} {incoming : List AlState}
      {stages' : List (List AlState)} {comps : List AlState} {evs : List Event},
      runPipeline stages incoming = Except.ok (stages', comps, evs) →
      pipeBounded stages + boundedCount incoming
        = pipeBounded stages' + boundedCount comps := by
  intro stages
  induction stages with
  | nil =>
    intro incoming stages' comps evs h
    simp only [runPipeline] at h
    split at h
    · rename_i hemp
      cases h
      have : incoming = [] := List.isEmpty_iff.mp hemp
      subst this
      rfl
    · cases h
  | cons stage rest ih =>
    intro incoming stages' comps evs h
    simp only [runPipeline] at h
    split at h
    · cases h
    · rename_i rem mov comp₁ evs₁ heq
      split at h
      · cases h
      · rename_i rest' comps' evs₂ heq₂
        cases h
        have h1 := processStage_boundedCount heq
        have h2 := ih heq₂
        rw [boundedCount_append] at h1
        rw [pipeBounded_cons, pipeBounded_cons, boundedCount_append]
        omega

theorem runPipeline_stage0_le {stages stages' : List (List AlState)}
    {comps : List AlState} {evs : List Event}
    (h : runPipeline stages [] = Except.ok (stages', comps, evs)) :
    stage0Bounded stages' ≤ stage0Bounded stages := by
  cases stages with
  | nil =>
    simp only [runPipeline] at h
    split at h
    · cases h
      exact Nat.le_refl _
    · cases h
  | cons st0 rest =>
    simp only [runPipeline] at h
    split at h
    · cases h
    · rename_i rem mov comp₁ evs₁ heq
      split at h
      · cases h
      · rename_i rest' comps' evs₂ heq₂
        cases h
        have h1 := processStage_boundedCount heq
        rw [List.append_nil] at h1
        show boundedCount rem ≤ boundedCount st0
        omega

theorem phaseBrun_spec :
    ∀ {rq rq' : List (Nat × List (List AlState))} {comps : List AlState}
      {evs : List Event},
      phaseBrun rq = Except.ok (rq', comps, evs) →
      rqPipeSum rq = rqPipeSum rq' + boundedCount comps
      ∧ rqExcess rq' ≤ rqExcess rq := by
  intro rq
  induction rq with
  | nil =>
    intro rq' comps evs h
    simp only [phaseBrun] at h
    cases h
    exact ⟨rfl, Nat.le_refl _⟩
  | cons row rest ih =>
    rcases row with ⟨stream, stages⟩
    intro rq' comps evs h
    simp only [phaseBrun] at h
    split at h
    · cases h
    · rename_i stages' comp₁ evs₁ heq
      split at h
      · cases h
      · rename_i rest' comps' evs₂ heq₂
        cases h
        obtain ⟨ih1, ih2⟩ := ih heq₂
        have h1 := runPipeline_boundedCount heq
        have h0 := runPipeline_stage0_le heq
        rw [boundedCount_nil] at h1
        constructor
        · rw [rqPipeSum_cons, rqPipeSum_cons, boundedCount_append]
          dsimp only at h1 ⊢
          omega
        · rw [rqExcess_cons, rqExcess_cons]
          dsimp only
          omega

/-! ## Helper lemmas: the engine invariant -/

theorem run_fields (cfg : Config) (S : PEState) :
    (run cfg S).run_queues = S.run_queues
    ∧ (run cfg S).num_bounded = S.num_bounded := by
  unfold run workerEntry
  split
  · exact ⟨rfl, rfl⟩
  · split <;> exact ⟨rfl, rfl⟩

theorem maybeStartOnDemand_fields (cfg : Config) (S : PEState) :
    (maybeStartOnDemand cfg S).run_queues = S.run_queues
    ∧ (maybeStartOnDemand cfg S).num_bounded = S.num_bounded := by
  unfold maybeStartOnDemand
  split
  · exact run_fields cfg S
  · exact ⟨rfl, rfl⟩

theorem cacheUpd_fields (cfg : Config) (tid stream slot : Nat) (S : PEState) :
    (cacheUpd cfg tid stream slot S).run_queues = S.run_queues
    ∧ (cacheUpd cfg tid stream slot S).num_bounded = S.num_bounded := by
  unfold cacheUpd
  split <;> exact ⟨rfl, rfl⟩

theorem enqueueCreate_fields {cfg : Config} {tid : Nat} {st : AlState}
    {S S' : PEState} {k : Nat} (h : enqueueCreate cfg tid st S k = Except.ok S') :
    S'.run_queues = S.run_queues ∧ S'.num_bounded = S.num_bounded := by
  unfold enqueueCreate at h
  split at h
  · cases h
    exact cacheUpd_fields cfg tid st.stream _ _
  · split at h
    · cases h
    · cases h
      exact cacheUpd_fields cfg tid st.stream _ _

theorem enqueueBody_fields {cfg : Config} {tid : Nat} {st : AlState}
    {S S' : PEState} (h : enqueueBody cfg tid st S = Except.ok S') :
    S'.run_queues = S.run_queues ∧ S'.num_bounded = S.num_bounded := by
  unfold enqueueBody at h
  split at h
  · split at h
    · cases h
      exact ⟨rfl, rfl⟩
    · exact enqueueCreate_fields h
  · split at h
    · cases h
      exact ⟨rfl, rfl⟩
    · exact enqueueCreate_fields h

theorem enqueue_fields {cfg : Config} {tid : Nat} {st : AlState} {S S' : PEState}
    (h : enqueue cfg tid st S = Except.ok S') :
    S'.run_queues = S.run_queues ∧ S'.num_bounded = S.num_bounded := by
  unfold enqueue at h
  obtain ⟨h1, h2⟩ := enqueueBody_fields h
  obtain ⟨h3, h4⟩ := maybeStartOnDemand_fields cfg S
  exact ⟨h1.trans h3, h2.trans h4⟩

theorem stop_fields {S S' : PEState} (h : stop S = Except.ok S') :
    S'.run_queues = S.run_queues ∧ S'.num_bounded = S.num_bounded := by
  unfold stop at h
  split at h
  · cases h
    exact ⟨rfl, rfl⟩
  · split at h
    · cases h
    · cases h
      exact ⟨rfl, rfl⟩

theorem engineInv_of_eq {cfg : Config} {S T : PEState}
    (h1 : T.run_queues = S.run_queues) (h2 : T.num_bounded = S.num_bounded)
    (hI : EngineInv cfg S) : EngineInv cfg T := by
  unfold EngineInv totalPipelineBounded at *
  rw [h1, h2]
  exact hI

theorem phaseAStep_inv (cfg : Config) (S : PEState) (slot : Nat)
    (hI : EngineInv cfg S) : EngineInv cfg (phaseAStep cfg S slot) := by
  obtain ⟨hK, hJ⟩ := hI
  unfold totalPipelineBounded at hK
  unfold phaseAStep
  split
  · exact ⟨hK, hJ⟩
  · rename_i req hpeek
    split
    · rename_i hrt
      split
      · rename_i hb
        constructor
        · show S.num_bounded + 1
            = rqPipeSum (rqAppendStage0
                (rqEnsure cfg S.run_queues req.stream) req.stream req)
          rw [rqPipeSum_appendStage0 _ _ _
                (rqContains_rqEnsure cfg S.run_queues req.stream),
              rqPipeSum_ensure]
          have hbb : bbit req = 1 := by
            unfold bbit
            rw [hrt]
            simp
          omega
        · show rqExcess (rqAppendStage0
              (rqEnsure cfg S.run_queues req.stream) req.stream req) ≤ cfg.cap
          by_cases hcap : S.num_bounded < cfg.cap
          · have c1 := rqExcess_le_stage0Sum
              (rqAppendStage0 (rqEnsure cfg S.run_queues req.stream) req.stream req)
            have c2 := rqStage0Sum_le_pipeSum
              (rqAppendStage0 (rqEnsure cfg S.run_queues req.stream) req.stream req)
            rw [rqPipeSum_appendStage0 _ _ _
                  (rqContains_rqEnsure cfg S.run_queues req.stream),
                rqPipeSum_ensure] at c2
            have hbb := bbit_le_one req
            omega
          · have hd : decide (S.num_bounded < cfg.cap) = false := by
              simp [hcap]
            rw [hd] at hb
            simp only [Bool.false_or] at hb
            have h0 : stage0Of S.run_queues req.stream = [] := by
              rcases Bool.or_eq_true_iff.mp hb with hnc | hemp
              · exact stage0Of_of_not_contains (by simpa using hnc)
              · exact List.isEmpty_iff.mp hemp
            have h0' : stage0Of (rqEnsure cfg S.run_queues req.stream)
                req.stream = [] := by
              rw [stage0Of_rqEnsure_self]
              exact h0
            rw [rqExcess_appendStage0_zero _ _ _ h0', rqExcess_ensure]
            exact hJ
      · exact ⟨hK, hJ⟩
    · rename_i hrt
      have hbb : bbit req = 0 := by
        unfold bbit
        rw [hrt]
        simp
      constructor
      · show S.num_bounded
          = rqPipeSum (rqAppendStage0
              (rqEnsure cfg S.run_queues req.stream) req.stream req)
        rw [rqPipeSum_appendStage0 _ _ _
              (rqContains_rqEnsure cfg S.run_queues req.stream),
            rqPipeSum_ensure]
        omega
      · show rqExcess (rqAppendStage0
            (rqEnsure cfg S.run_queues req.stream) req.stream req) ≤ cfg.cap
        rw [rqExcess_appendStage0_unbounded _ _ _ hbb, rqExcess_ensure]
        exact hJ

theorem foldl_phaseAStep_inv (cfg : Config) :
    ∀ (l : List Nat) (S : PEState), EngineInv cfg S →
      EngineInv cfg (l.foldl (phaseAStep cfg) S) := by
  intro l
  induction l with
  | nil => intro S hI; exact hI
  | cons x xs ih =>
    intro S hI
    rw [List.foldl_cons]
    exact ih _ (phaseAStep_inv cfg S x hI)

theorem phaseA_inv (cfg : Config) (S : PEState) (hI : EngineInv cfg S) :
    EngineInv cfg (phaseA cfg S) :=
  foldl_phaseAStep_inv cfg _ S hI

theorem enginePass_inv {cfg : Config} {S S' : PEState}
    (h : enginePass cfg S = Except.ok S') (hI : EngineInv cfg S) :
    EngineInv cfg S' := by
  have hT := phaseA_inv cfg S hI
  obtain ⟨hK, hJ⟩ := hT
  unfold totalPipelineBounded at hK
  unfold enginePass at h
  split at h
  · cases h
  · rename_i rq' comps evs heq
    cases h
    obtain ⟨h1, h2⟩ := phaseBrun_spec heq
    constructor
    · show (phaseA cfg S).num_bounded - boundedCount comps = rqPipeSum rq'
      omega
    · show rqExcess rq' ≤ cfg.cap
      omega

theorem engineInv_init (cfg : Config) : EngineInv cfg (initState cfg) := by
  constructor
  · rfl
  · show rqExcess [] ≤ cfg.cap
    exact Nat.zero_le _

theorem engineInv_reachable {cfg : Config} {S : PEState}
    (h : Reachable cfg S) : EngineInv cfg S := by
  induction h with
  | init => exact engineInv_init cfg
  | enq _ heq ih =>
    obtain ⟨h1, h2⟩ := enqueue_fields heq
    exact engineInv_of_eq h1 h2 ih
  | lifecycleRun _ ih =>
    obtain ⟨h1, h2⟩ := run_fields _ _
    exact engineInv_of_eq h1 h2 ih
  | lifecycleStop _ heq ih =>
    obtain ⟨h1, h2⟩ := stop_fields heq
    exact engineInv_of_eq h1 h2 ih
  | pass _ heq ih => exact enginePass_inv heq ih

theorem rqStage0Sum_le_excess_add (rq : List (Nat × List (List AlState))) :
    rqStage0Sum rq ≤ rqExcess rq
      + (rq.filter (fun row => 0 < stage0Bounded row.2)).length := by
  induction rq with
  | nil => exact Nat.le_refl _
  | cons row rest ih =>
    rw [rqStage0Sum_cons, rqExcess_cons]
    by_cases hb : 0 < stage0Bounded row.2
    · simp only [List.filter_cons, hb, decide_True, if_true, List.length_cons]
      omega
    · simp only [List.filter_cons, hb, decide_False, Bool.false_eq_true, if_false]
      have : stage0Bounded row.2 = 0 := by omega
      omega

/-! ## Claim theorems -/

/-- C9 (code bug): the CPU-set serialization does NOT round-trip.
`get_bitmap_len` computes `(last + 63) / 64` instead of the
`last / 64 + 1` words that `hwloc_bitmap_nr_ulongs` (which the source
comment claims to reimplement) would return, so whenever the highest set
bit's index is a multiple of 64 the top machine word is dropped.  For the
bitmap `{0}` (only CPU 0) the length is 0, nothing is serialized, and the
reconstruction is the empty set; for `{1}` the round trip works, showing
the failure is exactly the off-by-one. -/
theorem bitmap_roundtrip_drops_word :
    bitmap_roundtrip {0} = (∅ : HwBitmap)
    ∧ ({0} : HwBitmap) ≠ (∅ : HwBitmap)
    ∧ bitmap_roundtrip {1} = ({1} : HwBitmap) := by
  refine ⟨by decide, by decide, by decide⟩

/-- C7 (code bug): with `AL_PE_STREAM_QUEUE_CACHE` and `AL_THREAD_MULTIPLE`,
a submitter whose thread-local cache misses never scans the already
published slots `[0, k)` (that scan is only compiled in the no-cache
configuration), so a second thread enqueueing on an existing stream creates
a duplicate registry slot for the same stream.  Without the cache the same
two submissions leave a single slot. -/
theorem enqueue_cache_creates_duplicate_queue :
    (dupCacheRun.map queueStreams) = Except.ok [7, 7]
    ∧ (dupPlainRun.map queueStreams) = Except.ok [7] :=
  ⟨rfl, rfl⟩

/-- C2 (code bug): the duplicate queue created by a cache-missing second
thread breaks per-stream FIFO.  Ops 1 and 2 are enqueued by thread 1 and go
to slot 0, op 3 by thread 2 goes to a duplicate slot 1; the worker admits
one head per slot per pass, so the `start()` order is 1, 3, 2 although the
enqueue order on stream 7 was 1, 2, 3.  Without the cache the same
submissions start in enqueue order. -/
theorem enqueue_cache_breaks_stream_fifo :
    (fifoCacheRun.map (fun s => (startEvents s.trace, enqEventsOn 7 s.trace)))
      = Except.ok ([1, 3, 2], [1, 2, 3])
    ∧ (fifoPlainRun.map (fun s => (startEvents s.trace, enqEventsOn 7 s.trace)))
      = Except.ok ([1, 2, 3], [1, 2, 3]) :=
  ⟨rfl, rfl⟩

/-- C4 (counterexample): an operation can be stepped twice in one scheduler
pass.  Operation 9 sits alone in stage 0 of a 2-stage pipeline; its step
returns `advance`, it is moved to stage 1, and the same pass then steps it
again when it iterates stage 1 — two `step()` calls in a single pass,
refuting "at most once per scheduler pass". -/
theorem stepped_twice_in_one_pass :
    ((enginePass cfgCap1 advState).map (fun s => s.trace.count (Event.stepped 9)))
      = Except.ok 2 ∧ ¬(2 ≤ 1) :=
  ⟨rfl, by decide⟩

/-- C3 (confirmed): within one scheduler-pass visit of a (non-last) pipeline
stage, relative order is preserved and an operation leaves the stage only
from the head.  If the visit maps the stage contents `l` to remaining
entries `rem`, entries `mov` moved to stage `s+1` and completed entries,
then (i) the operations arriving at stage `s+1` are a subsequence of the
stage-`s` order, (ii) every moved operation stood strictly ahead of every
remaining one — i.e. an operation moves only after every operation ahead of
it has itself advanced or completed, never overtaking a stuck predecessor
(a non-head `advance` only sets `paused_for_advance`, visible in the
`forwardPass` branch, and the drain moves the paused prefix only), and
(iii) every arriving operation has its pause flag cleared. -/
theorem processStage_preserves_order (l rem mov comp : List AlState)
    (evs : List Event) (hnd : (opids l).Nodup)
    (h : processStage false l = Except.ok (rem, mov, comp, evs)) :
    (opids mov).Sublist (opids l)
    ∧ (∀ m ∈ mov, ∀ r ∈ rem,
        (opids l).indexOf m.opid < (opids l).indexOf r.opid)
    ∧ (∀ m ∈ mov, m.paused_for_advance = false) := by
  unfold processStage at h
  cases hf : forwardPass false true l with
  | error e => rw [hf] at h; cases h
  | ok t =>
    rcases t with ⟨kept, fmov, fcomp, fevs⟩
    rw [hf] at h
    dsimp only at h
    obtain ⟨k, hdr⟩ := drainPass_eq kept
    rw [hdr] at h
    dsimp only at h
    simp only [Bool.false_and, Bool.false_eq_true, if_false] at h
    cases h
    obtain ⟨l₁, l₂, hsplit, hmovs, hkepts⟩ := forwardPass_split hf
    subst hsplit
    have hkept_l : (opids kept).Sublist (opids (l₁ ++ l₂)) := by
      rw [opids_append]
      exact hkepts.trans (List.sublist_append_right _ _)
    have hndk : (opids kept).Nodup := hnd.sublist hkept_l
    refine ⟨?_, ?_, ?_⟩
    · rw [opids_append]
      have hdm : (opids ((kept.take k).map
          (fun r => { r with paused_for_advance := false }))).Sublist (opids l₂) := by
        rw [opids_map_clear]
        refine List.Sublist.trans ?_ hkepts
        rw [opids_take]
        exact List.take_sublist _ _
      rw [opids_append]
      exact List.Sublist.append hmovs hdm
    · intro m hm r hr
      have hrkept : r ∈ kept := List.drop_subset k kept hr
      have hrid2 : r.opid ∈ opids l₂ :=
        hkepts.subset (List.mem_map_of_mem _ hrkept)
      rcases List.mem_append.mp hm with hmf | hmd
      · have hmid : m.opid ∈ opids l₁ :=
          hmovs.subset (List.mem_map_of_mem _ hmf)
        rw [opids_append] at hnd ⊢
        exact indexOf_append_lt hnd hmid hrid2
      · obtain ⟨m₀, hm₀, hmeq⟩ := List.mem_map.mp hmd
        have hmop : m.opid = m₀.opid := by rw [← hmeq]
        have hmid : m.opid ∈ (opids kept).take k := by
          rw [hmop, ← opids_take]
          exact List.mem_map_of_mem _ hm₀
        have hrid : r.opid ∈ (opids kept).drop k := by
          rw [← opids_drop]
          exact List.mem_map_of_mem _ hr
        have hmk : m.opid ∈ opids kept := List.take_subset _ _ hmid
        have hrk : r.opid ∈ opids kept := List.drop_subset _ _ hrid
        have hndk' : ((opids kept).take k ++ (opids kept).drop k).Nodup := by
          rw [List.take_append_drop]
          exact hndk
        have hlt : (opids kept).indexOf m.opid < (opids kept).indexOf r.opid := by
          have := indexOf_append_lt hndk' hmid hrid
          rwa [List.take_append_drop] at this
        exact sublist_indexOf_lt hkept_l hnd hmk hrk hlt
    · intro m hm
      rcases List.mem_append.mp hm with hmf | hmd
      · exact forwardPass_moved_flags hf m hmf
      · obtain ⟨m₀, _, hmeq⟩ := List.mem_map.mp hmd
        rw [← hmeq]

/-- Witness for `processStage_preserves_order`: a singleton stage whose
operation advances. -/
theorem processStage_preserves_order_witness :
    (opids [uAdvCont]).Nodup
    ∧ processStage false [uAdvCont]
        = Except.ok ([], [uAdvContStepped], [], [Event.stepped 9])
    ∧ ((opids [uAdvContStepped]).Sublist (opids [uAdvCont])
        ∧ (∀ m ∈ [uAdvContStepped], ∀ r ∈ ([] : List AlState),
            (opids [uAdvCont]).indexOf m.opid < (opids [uAdvCont]).indexOf r.opid)
        ∧ (∀ m ∈ [uAdvContStepped], m.paused_for_advance = false)) :=
  ⟨by decide, rfl,
   processStage_preserves_order [uAdvCont] [] [uAdvContStepped] []
     [Event.stepped 9] (by decide) rfl⟩

/-- C4 (amended): within one visit of one pipeline stage, `step()` is
invoked at most once per resident operation (assuming the stage's operation
ids are distinct): the forward pass visits each entry once, pausing instead
of re-stepping, and the drain pass never steps.  Together with the
counterexample this yields the amended bound: at most once per stage an
operation occupies during the pass. -/
theorem stepOnce_per_stage (isLast : Bool) (l rem mov comp : List AlState)
    (evs : List Event) (hnd : (opids l).Nodup)
    (h : processStage isLast l = Except.ok (rem, mov, comp, evs)) :
    ∀ x : Nat, evs.count (Event.stepped x) ≤ 1 := by
  intro x
  have hsub := steppedIds_processStage h
  have hnodup : (steppedIds evs).Nodup := hnd.sublist hsub
  rw [count_stepped]
  exact List.nodup_iff_count_le_one.mp hnodup x

/-- Witness for `stepOnce_per_stage`: a single advancing operation is
stepped exactly once during its stage visit. -/
theorem stepOnce_per_stage_witness :
    (opids [uAdvCont]).Nodup
    ∧ processStage false [uAdvCont]
        = Except.ok ([],
            [{ opid := 9, stream := 3, runType := RunType.unbounded,
               paused_for_advance := false, script := [PEAction.cont] }],
            [], [Event.stepped 9])
    ∧ ∀ x : Nat, [Event.stepped 9].count (Event.stepped x) ≤ 1 :=
  ⟨by decide, rfl,
   stepOnce_per_stage false [uAdvCont] _ _ _ _ (by decide) rfl⟩

/-- C5 (counterexample): `num_bounded` can exceed
`concurrency_cap + (#streams with empty stage 0)`.  With `cap = 1`, bounded
op 1 is admitted and advances to stage 1; bounded op 2 on the same stream is
then admitted through the empty-stage-0 waiver.  In the resulting reachable
state `num_bounded = 2` while the cap plus the number of empty-stage-0
streams is `1 + 0 = 1`. -/
theorem num_bounded_cap_violation :
    (capRun.map (fun s => (s.num_bounded, cfgCap1.cap + emptyStage0Streams s)))
      = Except.ok (2, 1) ∧ ¬(2 ≤ 1) :=
  ⟨rfl, by decide⟩

/-- C5 (amended): the cap does bound stage-0 residency.  In every reachable
state, the number of bounded operations resident in stage 0 across all
pipelines is at most `concurrency_cap` plus the number of streams whose
stage 0 holds a bounded operation — i.e. the cap is exceeded by at most one
bounded operation per stream with bounded work at its pipeline head (each
such excess stems from one empty-stage-0 waiver).  The inductive invariant
(`EngineInv`) additionally identifies `num_bounded` with the number of
bounded operations resident anywhere in the pipelines. -/
theorem stage0_bounded_cap_invariant (cfg : Config) (S : PEState)
    (h : Reachable cfg S) :
    totalStage0Bounded S ≤ cfg.cap + boundedStage0Streams S := by
  have hI := engineInv_reachable h
  have h1 := rqStage0Sum_le_excess_add S.run_queues
  have h2 := hI.2
  unfold totalStage0Bounded boundedStage0Streams
  omega

/-- Witness for `stage0_bounded_cap_invariant` at the constructor state. -/
theorem stage0_bounded_cap_invariant_witness :
    totalStage0Bounded (initState cfgCap1)
      ≤ cfgCap1.cap + boundedStage0Streams (initState cfgCap1) :=
  stage0_bounded_cap_invariant cfgCap1 (initState cfgCap1) Reachable.init

/-- C6 (counterexample): without `AL_PE_START_ON_DEMAND` there is no
`doing_start_flag` guard in `run()`, so calling `run` twice spawns a second
worker thread and performs `bind()` a second time, refuting unconditional
idempotence.  (In C++ the second `thread = std::thread(...)` assignment to a
joinable thread would moreover terminate the process.) -/
theorem run_twice_spawns_twice :
    (run cfgCap1 (run cfgCap1 (initState cfgCap1))).threads_spawned = 2
    ∧ (run cfgCap1 (run cfgCap1 (initState cfgCap1))).bind_calls = 2
    ∧ (2 : Nat) ≠ 1 := by
  refine ⟨by decide, by decide, by decide⟩

/-- C6 (amended): with `AL_PE_START_ON_DEMAND` compiled in, `run` is
idempotent — the second call observes `doing_start_flag`, waits for
`started_flag`, and changes nothing: no second worker is spawned and `bind`
runs once. -/
theorem run_idempotent_on_demand (cfg : Config) (S : PEState)
    (h : cfg.onDemand = true) : run cfg (run cfg S) = run cfg S := by
  unfold run workerEntry
  rw [h]
  by_cases hd : S.doing_start_flag <;> simp [hd]

/-- Witness for `run_idempotent_on_demand` at the on-demand configuration
and the constructor state. -/
theorem run_idempotent_on_demand_witness :
    cfgOnDemand.onDemand = true
    ∧ run cfgOnDemand (run cfgOnDemand (initState cfgOnDemand))
        = run cfgOnDemand (initState cfgOnDemand) :=
  ⟨rfl, run_idempotent_on_demand cfgOnDemand (initState cfgOnDemand) rfl⟩

/-- C8 (confirmed): if an operation at the last pipeline stage is stepped
and returns `advance`, the engine raises the fatal configuration error
(`AL_DEBUG` check "Trying to advance pipeline stage too far") instead of
moving the operation — wherever the operation sits in the stage and
whatever the other entries do. -/
theorem advance_last_stage_fatal (l₁ l₂ : List AlState) (r : AlState)
    (hp : r.paused_for_advance = false)
    (ha : r.script.headD PEAction.cont = PEAction.advance) :
    processStage true (l₁ ++ r :: l₂) = Except.error PEErr.advanceTooFar := by
  unfold processStage
  rw [forwardPass_last_advance r hp ha l₁ l₂ true]

/-- Witness for `advance_last_stage_fatal`: a lone advancing operation at
the last stage faults. -/
theorem advance_last_stage_fatal_witness :
    uAdv.paused_for_advance = false
    ∧ uAdv.script.headD PEAction.cont = PEAction.advance
    ∧ processStage true ([] ++ uAdv :: []) = Except.error PEErr.advanceTooFar :=
  ⟨rfl, rfl, advance_last_stage_fatal [] [] uAdv rfl rfl⟩

/-- C1 (confirmed): Phase A admission.  For an input queue slot with a
non-null head: an unbounded head is always admitted, and a bounded head is
admitted iff `num_bounded < concurrency_cap`, or no pipeline row exists for
its stream, or that row's stage 0 is empty (`AdmitCondition`); when not
admitted, the state is unchanged.  On admission the operation is appended to
stage 0 of its stream's pipeline and popped from its input queue, and for a
bounded operation `num_bounded` is incremented; the emitted trace shows the
order `incBounded` (for bounded), `appendStage0`, `start`, `popQueue` — in
particular the increment precedes the `start()` call and the append precedes
the pop. -/
theorem phaseA_admission (cfg : Config) (S : PEState) (slot : Nat) (req : AlState)
    (h : peekSlot S slot = some req) :
    (¬ AdmitCondition cfg S req → phaseAStep cfg S slot = S)
    ∧ (AdmitCondition cfg S req →
        stage0Of (phaseAStep cfg S slot).run_queues req.stream
          = stage0Of S.run_queues req.stream ++ [req]
        ∧ slotQueue (phaseAStep cfg S slot) slot = (slotQueue S slot).tail
        ∧ (phaseAStep cfg S slot).num_bounded
            = S.num_bounded + (if req.runType = RunType.bounded then 1 else 0)
        ∧ (phaseAStep cfg S slot).trace
            = S.trace
              ++ (if req.runType = RunType.bounded then [Event.incBounded] else [])
              ++ [Event.appendStage0 req.opid, Event.start req.opid,
                  Event.popQueue slot]) := by
  unfold phaseAStep
  rw [h]
  dsimp only
  cases hrt : req.runType with
  | unbounded =>
    dsimp only
    constructor
    · intro hno
      exact absurd (Or.inl hrt) hno
    · intro _
      obtain ⟨h₁, h₂, h₃, h₄⟩ := doStart_observables cfg S slot req
      refine ⟨h₁, h₂, ?_, ?_⟩
      · rw [h₃]
        simp
      · rw [h₄]
        simp
  | bounded =>
    dsimp only
    by_cases hb : (decide (S.num_bounded < cfg.cap)
        || !(rqContains S.run_queues req.stream)
        || (stage0Of S.run_queues req.stream).isEmpty) = true
    · rw [if_pos hb]
      constructor
      · intro hno
        exfalso
        apply hno
        rcases Bool.or_eq_true_iff.mp hb with hor | hemp
        · rcases Bool.or_eq_true_iff.mp hor with hlt | hnc
          · exact Or.inr (Or.inl (by simpa using hlt))
          · exact Or.inr (Or.inr (Or.inl (by simpa using hnc)))
        · exact Or.inr (Or.inr (Or.inr (by simpa using hemp)))
      · intro _
        obtain ⟨h₁, h₂, h₃, h₄⟩ :=
          doStart_observables cfg
            { S with num_bounded := S.num_bounded + 1,
                     trace := S.trace ++ [Event.incBounded] } slot req
        refine ⟨by simpa using h₁, by simpa [slotQueue] using h₂, ?_, ?_⟩
        · rw [h₃]
          simp
        · rw [h₄]
          simp
    · rw [if_neg hb]
      constructor
      · intro _
        rfl
      · intro hyes
        exfalso
        apply hb
        rcases hyes with hu | hlt | hnc | hemp
        · rw [hrt] at hu
          cases hu
        · simp [hlt]
        · simp [hnc]
        · simp [hemp]

/-- Witness for `phaseA_admission`: a pending bounded head under the cap is
admitted with the full observable effect. -/
theorem phaseA_admission_witness :
    peekSlot admWitState 0 = some bPoll
    ∧ AdmitCondition cfgCap1 admWitState bPoll
    ∧ (stage0Of (phaseAStep cfgCap1 admWitState 0).run_queues bPoll.stream
          = stage0Of admWitState.run_queues bPoll.stream ++ [bPoll]
        ∧ slotQueue (phaseAStep cfgCap1 admWitState 0) 0
            = (slotQueue admWitState 0).tail
        ∧ (phaseAStep cfgCap1 admWitState 0).num_bounded
            = admWitState.num_bounded
              + (if bPoll.runType = RunType.bounded then 1 else 0)
        ∧ (phaseAStep cfgCap1 admWitState 0).trace
            = admWitState.trace
              ++ (if bPoll.runType = RunType.bounded then [Event.incBounded] else [])
              ++ [Event.appendStage0 bPoll.opid, Event.start bPoll.opid,
                  Event.popQueue 0]) :=
  ⟨rfl, Or.inr (Or.inl (by decide)),
   (phaseA_admission cfgCap1 admWitState 0 bPoll rfl).2 (Or.inr (Or.inl (by decide)))⟩

/-- C10 (confirmed): once `stop()` has returned, the engine never processes
work again.  `stop` sets `stop_flag`; no operation of the engine — `run`,
`enqueue`, or a worker pass — ever clears it; a subsequent `run` spawns a
fresh worker (in the non-on-demand configuration), and that worker's loop
observes `stop_flag` at the top and exits having performed zero
admission/stepping passes. -/
theorem stop_is_permanent (cfg : Config) (S : PEState)
    (h₁ : S.started_flag = true) (h₂ : S.stop_flag = false) :
    ∃ S', stop S = Except.ok S'
      ∧ S'.stop_flag = true
      ∧ (∀ T : PEState, T.stop_flag = true →
           (run cfg T).stop_flag = true
           ∧ (∀ (tid : Nat) (st : AlState) (T' : PEState),
                enqueue cfg tid st T = Except.ok T' → T'.stop_flag = true)
           ∧ (∀ T' : PEState, enginePass cfg T = Except.ok T' → T'.stop_flag = true))
      ∧ (cfg.onDemand = false →
           (run cfg S').threads_spawned = S'.threads_spawned + 1)
      ∧ (∀ fuel : Nat, engineLoop cfg fuel (run cfg S')
           = Except.ok (run cfg S', 0)) := by
  refine ⟨{ S with stop_flag := true }, ?_, rfl, ?_, ?_, ?_⟩
  · unfold stop
    rw [h₁, h₂]
    rfl
  · intro T hT
    refine ⟨by rw [run_stop_flag]; exact hT, ?_, ?_⟩
    · intro tid st T' h
      rw [enqueue_stop_flag h]
      exact hT
    · intro T' h
      rw [enginePass_stop_flag h]
      exact hT
  · intro hod
    unfold run workerEntry
    rw [hod]
    simp
  · intro fuel
    apply engineLoop_stopped
    rw [run_stop_flag]

/-- Witness for `stop_is_permanent`: a started, not-yet-stopped engine. -/
theorem stop_is_permanent_witness :
    (run cfgCap1 (initState cfgCap1)).started_flag = true
    ∧ (run cfgCap1 (initState cfgCap1)).stop_flag = false
    ∧ (∃ S', stop (run cfgCap1 (initState cfgCap1)) = Except.ok S'
        ∧ S'.stop_flag = true
        ∧ (∀ T : PEState, T.stop_flag = true →
             (run cfgCap1 T).stop_flag = true
             ∧ (∀ (tid : Nat) (st : AlState) (T' : PEState),
                  enqueue cfgCap1 tid st T = Except.ok T' → T'.stop_flag = true)
             ∧ (∀ T' : PEState, enginePass cfgCap1 T = Except.ok T' →
                  T'.stop_flag = true))
        ∧ (cfgCap1.onDemand = false →
             (run cfgCap1 S').threads_spawned = S'.threads_spawned + 1)
        ∧ (∀ fuel : Nat, engineLoop cfgCap1 fuel (run cfgCap1 S')
             = Except.ok (run cfgCap1 S', 0))) :=
  ⟨by decide, by decide,
   stop_is_permanent cfgCap1 (run cfgCap1 (initState cfgCap1)) (by decide) (by decide)⟩

end Aluminum
